import Mathlib

/-!
Verification of the Solidity CodeQL extractor's TRAP-generation core.

This file gives a shallow embedding, in Lean 4, of the extractor's data
model and operations:

* `Label`, `LabelGenerator`       — src/extractor/src/trap/label.rs
* `TrapValue`, `TrapEntry`, `LabelDef`, `TrapWriter`
                                  — src/extractor/src/trap/writer.rs
* `Extractor`, `extract_node`, `extract_children`, `normalize_kind`
                                  — src/extractor/src/extraction/extractor.rs
* `runVerdict`, `compute_trap_path`
                                  — src/extractor/src/extraction/mod.rs
* `Compression`                   — src/extractor/src/trap/compression.rs

Machine integers are modelled as `Nat` with explicit `% 2^w` where overflow
matters; Rust `String`/`&str` values are Lean `String`s (a wrapper around
`List Char`, matching Rust's sequence-of-`char` view used by the code, which
iterates with `s.chars()`).  The external `sha2` crate is modelled by a full
executable SHA-256 implementation.  The external tree-sitter parse tree is
modelled by the inductive `TSNode`, carrying exactly the data the extractor
reads through the tree-sitter API (kind id, kind name, named flag, 0-based
start/end points, leaf text, ordered children with optional field names).

Rust `std::path::Path` values are modelled by their list of normal
components (the code only applies `Path::parent`/`Display` to canonicalized
absolute paths); `renderPath` is the string rendering and `parent` is
`List.dropLast`, which is exactly `Path::parent` on such paths.

The `f64` variant `TrapValue::Float` is dead code (never constructed in the
repository) and floating point is not part of the embedding.
-/

/-! ### Decimal / hexadecimal rendering

Models Rust's `format!("{}", n)` and `format!("{:x}", n)` on unsigned
integers: minimal-length digit strings, lowercase hex, no leading zeros.
Defined with explicit fuel so that the kernel can evaluate them.
-/

/-- Little-endian base-`b` digits of `n`, with explicit fuel (structural
recursion so `decide`/`rfl` can evaluate it). -/
def digitsAux (b : Nat) : Nat → Nat → List Nat
  | 0, _ => []
  | fuel + 1, n => if n = 0 then [] else n % b :: digitsAux b fuel (n / b)

/-- Little-endian base-`b` digits of `n` (empty for `n = 0`). -/
def toDigitsLE (b n : Nat) : List Nat := digitsAux b n n

/-- Value of a little-endian digit list. -/
def ofDigitsLE (b : Nat) (ds : List Nat) : Nat :=
  ds.foldr (fun d acc => d + b * acc) 0

/-- Rust `format!("{}", n)` for unsigned `n`: minimal decimal rendering. -/
def natToDec (n : Nat) : String :=
  if n = 0 then "0" else String.mk ((toDigitsLE 10 n).reverse.map Nat.digitChar)

/-- Rust `format!("{:x}", n)` for unsigned `n`: minimal lowercase hex
rendering, no leading zeros. -/
def natToHex (n : Nat) : String :=
  if n = 0 then "0" else String.mk ((toDigitsLE 16 n).reverse.map Nat.digitChar)

/-! ### SHA-256 (model of the external `sha2` crate) -/

/-- Truncate to 32 bits. -/
def w32 (n : Nat) : Nat := n % 4294967296

/-- 32-bit rotate right by `n`. -/
def rotr32 (x n : Nat) : Nat := w32 ((x <<< (32 - n)) ||| (x >>> n))

/-- Xor of three right-rotations of `x` (the two Σ functions of the
compression, parameterized by their rotation amounts). -/
def rot3 (a b c x : Nat) : Nat := rotr32 x a ^^^ (rotr32 x b ^^^ rotr32 x c)

/-- Xor of two right-rotations and a plain shift of `x` (the two σ
functions of the message schedule). -/
def rot2sh (a b s x : Nat) : Nat := rotr32 x a ^^^ (rotr32 x b ^^^ x >>> s)

/-- SHA-256 choice function (the complement is a 32-bit xor mask). -/
def chf (x y z : Nat) : Nat := (z &&& (x ^^^ 4294967295)) ^^^ (x &&& y)

/-- SHA-256 majority function. -/
def majf (x y z : Nat) : Nat := (y &&& z) ^^^ ((x &&& y) ^^^ (x &&& z))

/-- Big-endian bytes of a 32-bit word. -/
def be32 (n : Nat) : List Nat :=
  [n >>> 24 &&& 255, n >>> 16 &&& 255, n >>> 8 &&& 255, n &&& 255]

/-- Big-endian bytes of a 64-bit word: high 32-bit half, then low half. -/
def be64 (n : Nat) : List Nat := be32 (n >>> 32) ++ be32 n

/-- Merkle–Damgård padding: one `0x80` byte, zeros up to 56 mod 64, and
the message bit length as a 64-bit big-endian tail. -/
def sha256Pad (msg : List Nat) : List Nat :=
  msg ++ [128] ++ List.replicate ((119 - msg.length % 64) % 64) 0
    ++ be64 (8 * msg.length)

/-- Pack bytes into big-endian 32-bit words (left-over bytes cannot occur
on padded input and are dropped). -/
def bytesToWords : List Nat → List Nat
  | a :: b :: c :: d :: rest =>
      (((((a <<< 8) ||| b) <<< 8) ||| c) <<< 8 ||| d) :: bytesToWords rest
  | _ => []

/-- Message-schedule extension: append `fuel` further words, each mixing
the words 2, 7, 15 and 16 places back. -/
def extendW : List Nat → Nat → List Nat
  | ws, 0 => ws
  | ws, fuel + 1 =>
      extendW (ws ++ [w32 (ws.getD (ws.length - 16) 0
        + (rot2sh 7 18 3 (ws.getD (ws.length - 15) 0)
          + (ws.getD (ws.length - 7) 0
            + rot2sh 17 19 10 (ws.getD (ws.length - 2) 0))))]) fuel

/-- One compression round on the 8-word working state, consuming one
round-constant/schedule-word pair. -/
def sha256Round (st : List Nat) (kw : Nat × Nat) : List Nat :=
  match st with
  | [a, b, c, d, e, f, g, h] =>
      let t1 := w32 (kw.1 + (kw.2 + (h + (rot3 6 11 25 e + chf e f g))))
      [w32 (t1 + w32 (rot3 2 13 22 a + majf a b c)), a, b, c,
        w32 (d + t1), e, f, g]
  | other => other

/-- Round constants (FIPS 180-4), in decimal. -/
def sha256K : List Nat :=
  [
      1116352408, 1899447441, 3049323471, 3921009573, 961987163,
      1508970993, 2453635748, 2870763221, 3624381080, 310598401,
      607225278, 1426881987, 1925078388, 2162078206, 2614888103,
      3248222580, 3835390401, 4022224774, 264347078, 604807628,
      770255983, 1249150122, 1555081692, 1996064986, 2554220882,
      2821834349, 2952996808, 3210313671, 3336571891, 3584528711,
      113926993, 338241895, 666307205, 773529912, 1294757372,
      1396182291, 1695183700, 1986661051, 2177026350, 2456956037,
      2730485921, 2820302411, 3259730800, 3345764771, 3516065817,
      3600352804, 4094571909, 275423344, 430227734, 506948616,
      659060556, 883997877, 958139571, 1322822218, 1537002063,
      1747873779, 1955562222, 2024104815, 2227730452, 2361852424,
      2428436474, 2756734187, 3204031479, 3329325298]

/-- Initial hash state (FIPS 180-4), in decimal. -/
def sha256H0 : List Nat :=
  [
      1779033703, 3144134277, 1013904242, 2773480762,
      1359893119, 2600822924, 528734635, 1541459225]

/-- Compress one 64-byte block into the hash state: schedule, 64 rounds,
then the feed-forward addition. -/
def sha256Block (h : List Nat) (block : List Nat) : List Nat :=
  (h.zip ((sha256K.zip (extendW (bytesToWords block) 48)).foldl
    sha256Round h)).map (fun p => w32 (p.1 + p.2))

/-- Iterate the block compression over 64-byte chunks; the fuel (the byte
count of the padded input) bounds the recursion. -/
def sha256Chunks (h : List Nat) : Nat → List Nat → List Nat
  | 0, _ => h
  | _, [] => h
  | fuel + 1, bytes =>
      sha256Chunks (sha256Block h (bytes.take 64)) fuel (bytes.drop 64)

/-- SHA-256 digest of a byte sequence, as 32 big-endian bytes. -/
def sha256 (msg : List Nat) : List Nat :=
  let p := sha256Pad msg
  (sha256Chunks sha256H0 p.length p).flatMap be32

/-- UTF-8 encoding of one scalar value. -/
def utf8Char (c : Char) : List Nat :=
  let n := c.toNat
  if n < 128 then [n]
  else if n < 2048 then [192 ||| (n >>> 6), 128 ||| (n &&& 63)]
  else if n < 65536 then
    [224 ||| (n >>> 12), 128 ||| ((n >>> 6) &&& 63), 128 ||| (n &&& 63)]
  else
    [240 ||| (n >>> 18), 128 ||| ((n >>> 12) &&& 63),
     128 ||| ((n >>> 6) &&& 63), 128 ||| (n &&& 63)]

/-- UTF-8 encoding of a string (Rust `str::as_bytes`). -/
def utf8Encode (s : String) : List Nat := s.data.flatMap utf8Char

/-- First 8 hash bytes folded big-endian into a `u64`
(`result[..8].iter().fold(0u64, |acc, &b| (acc << 8) | b as u64)`). -/
def u64Of8 (bytes : List Nat) : Nat :=
  (bytes.take 8).foldl (fun acc b => (acc <<< 8) ||| b) 0

/-- First 4 hash bytes folded big-endian into a `u32`
(`&hash[..4].iter().fold(0u32, |acc, &b| (acc << 8) | b as u32)`). -/
def u32Of4 (bytes : List Nat) : Nat :=
  (bytes.take 4).foldl (fun acc b => (acc <<< 8) ||| b) 0

/-! ### String escaping (`TrapValue::escape_string`, `Label::escape_string`)

The Rust code iterates over `char`s; the model works on `List Char`.
Character literals for quote and backslash are written via `Char.ofNat` to
keep the source free of delicate literals.
-/

/-- The double-quote character. -/
def qChar : Char := Char.ofNat 34

/-- The backslash character. -/
def bsChar : Char := Char.ofNat 92

/-- Rust `char::is_control`: Unicode category Cc, i.e. U+0000–U+001F and
U+007F–U+009F. -/
def isRustControl (c : Char) : Bool :=
  c.toNat < 32 || (127 ≤ c.toNat && c.toNat ≤ 159)

/-- Two lowercase hex digits (Rust `format!("\\x{:02x}", c as u32)` for
control characters, all below 0x100). -/
def hexPad2 (n : Nat) : List Char :=
  [Nat.digitChar (n / 16 % 16), Nat.digitChar (n % 16)]

/-- Per-character escaping of `TrapValue::escape_string`
(src/extractor/src/trap/writer.rs lines 47–64): quote is doubled, backslash
doubled, `\n`/`\r`/`\t`/`\0` named escapes, other control characters
`\xHH`, everything else verbatim. -/
def escapeChar (c : Char) : List Char :=
  if c = qChar then [qChar, qChar]
  else if c = bsChar then [bsChar, bsChar]
  else if c = '\n' then [bsChar, 'n']
  else if c = '\r' then [bsChar, 'r']
  else if c = '\t' then [bsChar, 't']
  else if c = Char.ofNat 0 then [bsChar, '0']
  else if isRustControl c then bsChar :: 'x' :: hexPad2 c.toNat
  else [c]

/-- Per-character escaping of `Label::escape_string`
(src/extractor/src/trap/label.rs lines 55–71): quote is
backslash-escaped (not doubled), backslash doubled, `\n`/`\r`/`\t` named
escapes, other control characters (including NUL) `\xHH`. -/
def keyEscapeChar (c : Char) : List Char :=
  if c = qChar then [bsChar, qChar]
  else if c = bsChar then [bsChar, bsChar]
  else if c = '\n' then [bsChar, 'n']
  else if c = '\r' then [bsChar, 'r']
  else if c = '\t' then [bsChar, 't']
  else if isRustControl c then bsChar :: 'x' :: hexPad2 c.toNat
  else [c]

/-! ### Labels (src/extractor/src/trap/label.rs) -/

/-- A TRAP label: a wrapper around its raw string, like Rust's
`struct Label(String)`. -/
structure Label where
  str : String
deriving DecidableEq, Repr

/-- `Label::escape_string`. -/
def Label.escape_string (s : String) : String :=
  String.mk (s.data.flatMap keyEscapeChar)

/-- `Label::fresh(prefix, id)`: renders `#{10000 + id}`; the prefix
parameter is ignored by the source. -/
def Label.fresh (_pfx : String) (id : Nat) : Label :=
  ⟨"#" ++ natToDec (10000 + id)⟩

/-- `Label::key(content)`: renders `@"<escaped content>"`. -/
def Label.key (content : String) : Label :=
  ⟨"@\"" ++ Label.escape_string content ++ "\""⟩

/-- The label produced by the `id`-th fresh allocation (prefix-independent
shorthand for `Label.fresh`). -/
def freshL (id : Nat) : Label := Label.fresh "" id

/-- `LabelGenerator`: path-derived prefix plus a counter.  The Rust
`AtomicU64` is owned by a single extraction, so a plain `Nat` with explicit
state passing models it. -/
structure LabelGenerator where
  pfx : String
  counter : Nat

/-- `LabelGenerator::new(file_path)`: prefix = unpadded hex of the first
4 bytes of SHA-256 of the path, counter starts at 0. -/
def LabelGenerator.new (file_path : String) : LabelGenerator :=
  { pfx := natToHex (u32Of4 (sha256 (utf8Encode file_path))), counter := 0 }

/-- `LabelGenerator::fresh`: returns `Label::fresh(prefix, counter)` and
increments the counter (`fetch_add` returns the old value). -/
def LabelGenerator.fresh (g : LabelGenerator) : Label × LabelGenerator :=
  (Label.fresh g.pfx g.counter, { g with counter := g.counter + 1 })

/-- `LabelGenerator::key`. -/
def LabelGenerator.key (_g : LabelGenerator) (content : String) : Label :=
  Label.key content

/-! ### TRAP writer (src/extractor/src/trap/writer.rs) -/

/-- A value in a TRAP tuple.  `TrapValue::Float` is dead code in the
repository (never constructed) and is omitted. -/
inductive TrapValue where
  | label (l : Label)
  | string (s : String)
  | int (i : Int)
  | uint (u : Nat)
deriving DecidableEq, Repr

/-- `TrapValue::escape_string`. -/
def TrapValue.escape_string (s : String) : String :=
  String.mk (s.data.flatMap escapeChar)

/-- Rust `format!("{}", i)` for `i64`. -/
def intRepr (i : Int) : String :=
  if i < 0 then "-" ++ natToDec i.natAbs else natToDec i.natAbs

/-- `TrapValue::format`. -/
def TrapValue.format : TrapValue → String
  | .label l => l.str
  | .string s => "\"" ++ TrapValue.escape_string s ++ "\""
  | .int i => intRepr i
  | .uint u => natToDec u

/-- A TRAP table entry (one tuple). -/
structure TrapEntry where
  table : String
  values : List TrapValue
deriving DecidableEq, Repr

/-- `TrapEntry::format`: `table(v1, v2, ...)`. -/
def TrapEntry.format (e : TrapEntry) : String :=
  e.table ++ "(" ++ String.intercalate ", " (e.values.map TrapValue.format) ++ ")"

/-- A label definition: `#id=*` (fresh) or `#id=@"key"` (key). -/
inductive LabelDef where
  | fresh (l : Label)
  | key (numeric : Label) (keyLabel : Label)
deriving DecidableEq, Repr

/-- `LabelDef::format`. -/
def LabelDef.format : LabelDef → String
  | .fresh l => l.str ++ "=*"
  | .key numeric keyLabel => numeric.str ++ "=" ++ keyLabel.str

/-- The label a definition declares (the fresh numeric label in both
variants). -/
def LabelDef.declaredLabel : LabelDef → Label
  | .fresh l => l
  | .key numeric _ => numeric

/-- Association-list lookup with `String` keys (models `HashMap::get`). -/
def alookup {α : Type} : List (String × α) → String → Option α
  | [], _ => none
  | (k', v') :: rest, k => if k' = k then some v' else alookup rest k

/-- Association-list insert with replacement (models `HashMap::insert`). -/
def ainsert {α : Type} : List (String × α) → String → α → List (String × α)
  | [], k, v => [(k, v)]
  | (k', v') :: rest, k, v =>
      if k' = k then (k, v) :: rest else (k', v') :: ainsert rest k v

/-- `TrapWriter` state.  `Vec` push is modelled by appending on the right;
the `HashSet`/`HashMap` fields are association lists queried only by
membership/lookup. -/
structure TrapWriter where
  labels : LabelGenerator
  label_defs : List LabelDef
  defined_labels : List String
  entries : List TrapEntry
  comments : List String
  string_cache : List (String × Label)

/-- `TrapWriter::new(file_path)`. -/
def TrapWriter.new (file_path : String) : TrapWriter :=
  { labels := LabelGenerator.new file_path, label_defs := [],
    defined_labels := [], entries := [], comments := [], string_cache := [] }

/-- `TrapWriter::define_fresh_label` (no-op when already defined). -/
def TrapWriter.define_fresh_label (w : TrapWriter) (label : Label) : TrapWriter :=
  if w.defined_labels.contains label.str then w
  else { w with defined_labels := label.str :: w.defined_labels,
                label_defs := w.label_defs ++ [LabelDef.fresh label] }

/-- `TrapWriter::fresh_label`: generate a fresh label and define it. -/
def TrapWriter.fresh_label (w : TrapWriter) : Label × TrapWriter :=
  let p := w.labels.fresh
  (p.1, TrapWriter.define_fresh_label { w with labels := p.2 } p.1)

/-- `TrapWriter::define_key_label`: cached key-to-numeric binding; first
call allocates a fresh numeric label, declares the binding and caches it. -/
def TrapWriter.define_key_label (w : TrapWriter) (key_label : Label) : Label × TrapWriter :=
  match alookup w.string_cache key_label.str with
  | some existing => (existing, w)
  | none =>
      let p := w.labels.fresh
      (p.1,
       { w with labels := p.2,
                label_defs := w.label_defs ++ [LabelDef.key p.1 key_label],
                defined_labels := key_label.str :: w.defined_labels,
                string_cache := (key_label.str, p.1) :: w.string_cache })

/-- `TrapWriter::emit`: append one tuple. -/
def TrapWriter.emit (w : TrapWriter) (table : String) (values : List TrapValue) : TrapWriter :=
  { w with entries := w.entries ++ [⟨table, values⟩] }

/-- `TrapWriter::emit_file`: declare (or reuse) the key label for a file
path and append a `files` tuple. -/
def TrapWriter.emit_file (w : TrapWriter) (path : String) : Label × TrapWriter :=
  let key_label := w.labels.key path
  let p := w.define_key_label key_label
  (p.1, p.2.emit "files" [TrapValue.label p.1, TrapValue.string path])

/-- `TrapWriter::emit_folder`: declare (or reuse) the key label for a
folder path and append a `folders` tuple. -/
def TrapWriter.emit_folder (w : TrapWriter) (path : String) : Label × TrapWriter :=
  let key_label := w.labels.key path
  let p := w.define_key_label key_label
  (p.1, p.2.emit "folders" [TrapValue.label p.1, TrapValue.string path])

/-- `TrapWriter::emit_location`: fresh label plus a `locations_default`
tuple. -/
def TrapWriter.emit_location (w : TrapWriter) (file_label : Label)
    (start_line start_col end_line end_col : Nat) : Label × TrapWriter :=
  let p := w.fresh_label
  (p.1, p.2.emit "locations_default"
    [TrapValue.label p.1, TrapValue.label file_label, TrapValue.uint start_line,
     TrapValue.uint start_col, TrapValue.uint end_line, TrapValue.uint end_col])

/-- The lines of `TrapWriter::format` output, in order: header comment,
blank line, user comments (with trailing blank when present), the label
definition block, then all tuples. -/
def TrapWriter.formatLines (w : TrapWriter) : List String :=
  ["// CodeQL TRAP file generated by codeql-extractor-solidity", ""]
  ++ w.comments.map (fun c => "// " ++ c)
  ++ (if w.comments.isEmpty then [] else [""])
  ++ (if w.label_defs.isEmpty then []
      else "// Label definitions" :: w.label_defs.map LabelDef.format ++ [""])
  ++ w.entries.map TrapEntry.format

/-- `TrapWriter::format`: the serialized artifact text (each line of
`formatLines` terminated by a newline, exactly as `writeln!` produces). -/
def TrapWriter.format (w : TrapWriter) : String :=
  String.join (w.formatLines.map (fun l => l ++ "\n"))

/-! ### Extraction driver pieces (src/extractor/src/extraction/mod.rs) -/

/-- Compression mode (src/extractor/src/trap/compression.rs). -/
inductive Compression where
  | gzip
  | none
deriving DecidableEq, Repr

/-- `Compression::extension`. -/
def Compression.extension : Compression → String
  | .gzip => ".trap.gz"
  | .none => ".trap"

/-- Outcome of `run`'s aggregate failure policy (which `anyhow::bail!`
branch, warning, or clean success). -/
inductive RunOutcome where
  | fatalAll
  | fatalTooMany
  | okWarn
  | okClean
deriving DecidableEq, Repr

/-- Whether the outcome makes the run fail (an `anyhow::bail!`). -/
def RunOutcome.isFatal : RunOutcome → Bool
  | .fatalAll => true
  | .fatalTooMany => true
  | .okWarn => false
  | .okClean => false

/-- The aggregate failure policy of `run`
(src/extractor/src/extraction/mod.rs lines 90–122) applied to per-file
results (`true` = success).  Mirrors the counting loop and the exact
`if`/`else if` chain, including `error_count > files.len() / 2` with
truncating integer division. -/
def runVerdict (results : List Bool) : RunOutcome :=
  let success_count := (results.filter (fun r => r)).length
  let error_count := (results.filter (fun r => !r)).length
  let _ := success_count
  if error_count > 0 && error_count = results.length then .fatalAll
  else if error_count > 0 && error_count > results.length / 2 then .fatalTooMany
  else if error_count > 0 then .okWarn
  else .okClean

/-- `compute_trap_path` (src/extractor/src/extraction/mod.rs lines
218–239): hash = unpadded lowercase hex of the first 8 SHA-256 bytes of
the path string, bucketed by its first two characters, with the
compression extension appended.  `PathBuf::join` on relative components is
rendered with `/`.  (The Rust slice `&hash[..2]` panics if the rendering
is shorter than two characters; the model takes the first two.) -/
def compute_trap_path (trap_dir : String) (source_file : String)
    (compression : Compression) : String :=
  let hash := natToHex (u64Of8 (sha256 (utf8Encode source_file)))
  let subdir := hash.take 2
  let filename := hash ++ compression.extension
  trap_dir ++ "/" ++ subdir ++ "/" ++ filename

/-- The hex hash component of `compute_trap_path` for a given path. -/
def trapHashHex (source_file : String) : String :=
  natToHex (u64Of8 (sha256 (utf8Encode source_file)))

/-! ### Tree-sitter tree model

`TSNode` models the data the extractor reads from the external tree-sitter
API: `kind_id()`, `kind()`, `is_named()`, `start_position()`/`end_position()`
(0-based row/column), `utf8_text` (for leaves), and the ordered children
with `field_name_for_child`.
-/

mutual
inductive TSNode : Type where
  | mk (kindId : Nat) (kind : String) (named : Bool)
       (startRow startCol endRow endCol : Nat)
       (text : String) (children : TSKids) : TSNode
inductive TSKids : Type where
  | nil : TSKids
  | cons (fieldName : Option String) (child : TSNode) (rest : TSKids) : TSKids
end

/-- `Node::child_count`. -/
def TSKids.count : TSKids → Nat
  | .nil => 0
  | .cons _ _ rest => rest.count + 1

/-- The node's kind name. -/
def TSNode.kind : TSNode → String
  | .mk _ k _ _ _ _ _ _ _ => k

/-- The node's children. -/
def TSNode.children : TSNode → TSKids
  | .mk _ _ _ _ _ _ _ _ cs => cs

/-- Replace every occurrence of the character `c` by the string `to`
(Rust `str::replace` with a single-character pattern). -/
def replaceChar (c : Char) (t : List Char) (s : List Char) : List Char :=
  s.flatMap (fun x => if x = c then t else [x])

/-- ASCII lowercasing of one character (the table-name alphabet the
extractor feeds to `str::to_lowercase` is ASCII, where Unicode and ASCII
lowercasing agree). -/
def asciiLower (c : Char) : Char :=
  if 65 ≤ c.toNat ∧ c.toNat ≤ 90 then Char.ofNat (c.toNat + 32) else c

/-- `normalize_kind` (src/extractor/src/extraction/extractor.rs lines
266–298): the chain of single-character `replace` calls, then lowercase.
Apostrophe, quote, backtick and braces are written via `Char.ofNat`. -/
def normalize_kind (kind : String) : String :=
  let l := kind.data
  let l := replaceChar '-' ['_'] l
  let l := replaceChar '+' ['p','l','u','s'] l
  let l := replaceChar '*' ['s','t','a','r'] l
  let l := replaceChar '/' ['s','l','a','s','h'] l
  let l := replaceChar '%' ['p','e','r','c','e','n','t'] l
  let l := replaceChar '&' ['a','m','p'] l
  let l := replaceChar '|' ['p','i','p','e'] l
  let l := replaceChar '^' ['c','a','r','e','t'] l
  let l := replaceChar '!' ['b','a','n','g'] l
  let l := replaceChar '=' ['e','q'] l
  let l := replaceChar '<' ['l','t'] l
  let l := replaceChar '>' ['g','t'] l
  let l := replaceChar '.' ['d','o','t'] l
  let l := replaceChar ',' ['c','o','m','m','a'] l
  let l := replaceChar ';' ['s','e','m','i'] l
  let l := replaceChar ':' ['c','o','l','o','n'] l
  let l := replaceChar '(' ['l','p','a','r','e','n'] l
  let l := replaceChar ')' ['r','p','a','r','e','n'] l
  let l := replaceChar '[' ['l','b','r','a','c','k','e','t'] l
  let l := replaceChar ']' ['r','b','r','a','c','k','e','t'] l
  let l := replaceChar (Char.ofNat 123) ['l','b','r','a','c','e'] l
  let l := replaceChar (Char.ofNat 125) ['r','b','r','a','c','e'] l
  let l := replaceChar '?' ['q','u','e','s','t','i','o','n'] l
  let l := replaceChar '~' ['t','i','l','d','e'] l
  let l := replaceChar '@' ['a','t'] l
  let l := replaceChar '#' ['h','a','s','h'] l
  let l := replaceChar '$' ['d','o','l','l','a','r'] l
  let l := replaceChar (Char.ofNat 96) ['b','a','c','k','t','i','c','k'] l
  let l := replaceChar (Char.ofNat 39) ['s','q','u','o','t','e'] l
  let l := replaceChar (Char.ofNat 34) ['d','q','u','o','t','e'] l
  String.mk (l.map asciiLower)

/-- The table name for a field relationship:
`format!("solidity_{}_{}", kind, field_name)` with `kind` already
normalized. -/
def fieldTbl (kind fieldName : String) : String :=
  "solidity_" ++ normalize_kind kind ++ "_" ++ fieldName

/-! ### The extractor (src/extractor/src/extraction/extractor.rs) -/

/-- The straight-line part of `Extractor::extract_node` (lines 129–167),
before the recursion into the children: fresh label, kind-marker tuple,
node info, location, optional parent edge, token info for leaves.
`fl` is `self.file_label` (set before any traversal); `childCount` is
`node.child_count()`. -/
def nodePrelude (fl : Label) (w : TrapWriter) (kindId : Nat) (kind : String)
    (named : Bool) (startRow startCol endRow endCol : Nat) (text : String)
    (childCount : Nat) (parent_info : Option (Label × Nat)) :
    Label × TrapWriter :=
  let p1 := w.fresh_label
  let label := p1.1
  let w1 := p1.2
  let table_name :=
    if named then "solidity_" ++ normalize_kind kind ++ "_def"
    else "solidity_token_def"
  let w2 := w1.emit table_name [TrapValue.label label]
  let w3 := w2.emit "solidity_ast_node_info"
    [TrapValue.label label, TrapValue.uint kindId]
  let p2 := w3.emit_location fl (startRow + 1) (startCol + 1)
    (endRow + 1) (endCol + 1)
  let w4 := p2.2.emit "solidity_ast_node_location"
    [TrapValue.label label, TrapValue.label p2.1]
  let w5 :=
    match parent_info with
    | some pi => w4.emit "solidity_ast_node_parent"
        [TrapValue.label label, TrapValue.label pi.1, TrapValue.uint pi.2]
    | none => w4
  let w6 :=
    if childCount = 0 then
      w5.emit "solidity_tokeninfo"
        [TrapValue.label label, TrapValue.uint kindId, TrapValue.string text]
    else w5
  (label, w6)

mutual
/-- `Extractor::extract_node` (lines 122–174): the straight-line prelude,
then the children. -/
def extract_node (fl : Label) (w : TrapWriter) (n : TSNode)
    (parent_info : Option (Label × Nat)) : Label × TrapWriter :=
  match n with
  | .mk kindId kind named startRow startCol endRow endCol text children =>
    let p := nodePrelude fl w kindId kind named startRow startCol endRow endCol
      text children.count parent_info
    (p.1, extract_children fl p.1 kind p.2 children 0 [])

/-- `Extractor::extract_children_and_fields` (lines 177–213): extract each
child with its global sibling index, and for field-bound children emit a
`(parent, field-local-index, child)` tuple, threading the per-field-name
occurrence counter map. -/
def extract_children (fl : Label) (parent_label : Label) (parentKind : String)
    (w : TrapWriter) (cs : TSKids) (child_index : Nat)
    (field_indices : List (String × Nat)) : TrapWriter :=
  match cs with
  | .nil => w
  | .cons fieldName child rest =>
    let p := extract_node fl w child (some (parent_label, child_index))
    match fieldName with
    | some f =>
        let field_idx := (alookup field_indices f).getD 0
        let field_indices' := ainsert field_indices f (field_idx + 1)
        let w' := p.2.emit (fieldTbl parentKind f)
          [TrapValue.label parent_label, TrapValue.uint field_idx,
           TrapValue.label p.1]
        extract_children fl parent_label parentKind w' rest (child_index + 1)
          field_indices'
    | none =>
        extract_children fl parent_label parentKind p.2 rest (child_index + 1)
          field_indices
end

/-! ### Paths and the folder hierarchy

A canonicalized absolute Rust path is modelled by its list of normal
components (`/x/y/Z.sol` is `["x", "y", "Z.sol"]`, the root `/` is `[]`).
On such paths `Path::parent` is `List.dropLast` (`none` at the root) and
`Display`/`to_string_lossy` is `renderPath`.
-/

/-- String rendering of an absolute path given by its components. -/
def renderPath : List String → String
  | [] => "/"
  | cs => String.join (cs.map (fun c => "/" ++ c))

/-- The `while let Some(dir) = current` loop of `emit_folder_hierarchy`:
all proper ancestors, immediate parent first, root (`[]`) last.  The
`is_empty` filter never fires on absolute paths.  Fuel-based structural
recursion on the component count. -/
def ancestorsAux : Nat → List String → List (List String)
  | 0, _ => []
  | _, [] => []
  | fuel + 1, cs => cs.dropLast :: ancestorsAux fuel cs.dropLast

/-- Proper ancestors of a path, leaf-most first (the order the source
collects them in before reversing). -/
def collectAncestors (cs : List String) : List (List String) :=
  ancestorsAux cs.length cs

/-- The folder loop of `Extractor::emit_folder_hierarchy` (lines 83–98):
emit each folder, link it to the previously emitted folder. -/
def emitFolderChain (w : TrapWriter) (parent_label : Option Label) :
    List String → TrapWriter × Option Label
  | [] => (w, parent_label)
  | folder :: rest =>
    let p := w.emit_folder folder
    let w' :=
      match parent_label with
      | some parent => p.2.emit "containerparent"
          [TrapValue.label parent, TrapValue.label p.1]
      | none => p.2
    emitFolderChain w' (some p.1) rest

/-- `Extractor` state (src/extractor/src/extraction/extractor.rs lines
13–20), with the file path carried as components. -/
structure Extractor where
  file_comps : List String
  trap : TrapWriter
  file_label : Option Label

/-- `Extractor::new`. -/
def Extractor.new (file_comps : List String) : Extractor :=
  { file_comps := file_comps, trap := TrapWriter.new (renderPath file_comps),
    file_label := none }

/-- `Extractor::emit_folder_hierarchy` (lines 66–112): collect ancestors,
reverse to root-first order, emit the chain, then link the file to its
immediate parent folder. -/
def Extractor.emit_folder_hierarchy (e : Extractor) : Extractor :=
  let folders := (collectAncestors e.file_comps).map renderPath
  let folders := folders.reverse
  let p := emitFolderChain e.trap none folders
  let trap' :=
    match p.2, e.file_label with
    | some parent, some file =>
        p.1.emit "containerparent"
          [TrapValue.label parent, TrapValue.label file]
    | _, _ => p.1
  { e with trap := trap' }

/-- `Extractor::extract` (lines 33–56) with the parse step factored out:
the already-parsed tree root is the input (parsing is the external
tree-sitter collaborator).  Emits the file entry, the folder hierarchy,
then the tree. -/
def Extractor.extract (e : Extractor) (root : TSNode) : Extractor :=
  let p := e.trap.emit_file (renderPath e.file_comps)
  let e1 := { e with trap := p.2, file_label := some p.1 }
  let e2 := e1.emit_folder_hierarchy
  let p2 := extract_node p.1 e2.trap root none
  { e2 with trap := p2.2 }

/-- One whole single-file extraction: `Extractor::new` followed by
`Extractor::extract`. -/
def extractFile (file_comps : List String) (root : TSNode) : Extractor :=
  (Extractor.new file_comps).extract root

/-! ### Predicates and projections used by the verification statements -/

/-- The labels a definition list declares. -/
def DeclaredL (defs : List LabelDef) (l : Label) : Prop :=
  ∃ d ∈ defs, d.declaredLabel = l

/-- A label is declared in a writer when some buffered label definition
declares it. -/
def Declared (w : TrapWriter) (l : Label) : Prop :=
  DeclaredL w.label_defs l

/-- The labels referenced by a tuple's values. -/
def entryRefs (e : TrapEntry) : List Label :=
  e.values.filterMap fun v =>
    match v with
    | .label l => some l
    | _ => none

/-- Strings of key-label form (`@"..."`): these can never collide with the
`#`-prefixed fresh-label strings. -/
def KeyStr (s : String) : Prop :=
  ∃ t, s = "@\"" ++ t

/-- Writer well-formedness, maintained by every writer operation the
extractor performs: every buffered definition declares a fresh label below
the counter, every recorded defined-label string is such a fresh-label
string or a key string, cached labels are declared, and every buffered
tuple references only declared labels. -/
def WInv (w : TrapWriter) : Prop :=
  (∀ d ∈ w.label_defs, ∃ j, j < w.labels.counter ∧ d.declaredLabel = freshL j)
  ∧ (∀ s ∈ w.defined_labels,
      (∃ j, j < w.labels.counter ∧ s = (freshL j).str) ∨ KeyStr s)
  ∧ (∀ p ∈ w.string_cache, Declared w p.2)
  ∧ (∀ e ∈ w.entries, ∀ l ∈ entryRefs e, Declared w l)

/-- Field-relationship tuples are exactly the tuples of shape
`(label, unsigned, label)`; no other tuple the extractor emits has this
shape. -/
def isFieldShaped (e : TrapEntry) : Bool :=
  match e.values with
  | [.label _, .uint _, .label _] => true
  | _ => false

/-- The field-local indices, in emission order, of the field-relationship
tuples in `es` whose table is `tbl` and whose parent label string is `s`. -/
def fieldSeq : List TrapEntry → String → String → List Nat
  | [], _, _ => []
  | e :: rest, s, tbl =>
    match e.values with
    | [.label p, .uint i, .label _] =>
        if e.table = tbl ∧ p.str = s then i :: fieldSeq rest s tbl
        else fieldSeq rest s tbl
    | _ => fieldSeq rest s tbl

/-- Number of children whose field name renders to the table `tbl` for a
parent of kind `kind`. -/
def countFT (kind tbl : String) : TSKids → Nat
  | .nil => 0
  | .cons none _ rest => countFT kind tbl rest
  | .cons (some f) _ rest =>
      (if fieldTbl kind f = tbl then 1 else 0) + countFT kind tbl rest

/-- The field-local indices the children loop assigns for table `tbl`,
as a pure function of the field-occurrence map it threads. -/
def levelSeq (m : List (String × Nat)) (kind tbl : String) : TSKids → List Nat
  | .nil => []
  | .cons none _ rest => levelSeq m kind tbl rest
  | .cons (some f) _ rest =>
      let fi := (alookup m f).getD 0
      let m' := ainsert m f (fi + 1)
      if fieldTbl kind f = tbl then fi :: levelSeq m' kind tbl rest
      else levelSeq m' kind tbl rest

/-- A `folders` tuple for path `p` (Boolean matcher). -/
def isFolderRow (p : String) (e : TrapEntry) : Bool :=
  e.table == "folders" &&
    (match e.values with
     | [.label _, .string q] => q == p
     | _ => false)

/-- A `containerparent` tuple. -/
def cpEntry (parent child : Label) : TrapEntry :=
  ⟨"containerparent", [TrapValue.label parent, TrapValue.label child]⟩

/-- A `folders` tuple. -/
def folderEntry (l : Label) (p : String) : TrapEntry :=
  ⟨"folders", [TrapValue.label l, TrapValue.string p]⟩

/-- The tuples `emitFolderChain` appends when every folder is a cache
miss: per folder a `folders` row labelled by consecutive fresh labels
starting at `c0`, with a `containerparent` link from the previous one. -/
def chainRows (c0 : Nat) (parent0 : Option Label) : List String → List TrapEntry
  | [] => []
  | f :: rest =>
      folderEntry (freshL c0) f ::
        ((match parent0 with
          | some pl => [cpEntry pl (freshL c0)]
          | none => []) ++ chainRows (c0 + 1) (some (freshL c0)) rest)

/-- Iterate `LabelGenerator::fresh`, discarding the labels. -/
def freshIter (g : LabelGenerator) : Nat → LabelGenerator
  | 0 => g
  | i + 1 => freshIter g.fresh.2 i

/-- The label returned by the `i`-th `fresh()` call on a generator created
for `path` (0-based). -/
def freshNth (path : String) (i : Nat) : Label :=
  (freshIter (LabelGenerator.new path) i).fresh.1

/-- First independent run of the per-file pipeline: construct an extractor
for the path, extract the tree, serialize. -/
def pipelineRunA (file_comps : List String) (root : TSNode) : String :=
  (extractFile file_comps root).trap.format

/-- Second independent run of the per-file pipeline, built from its own
`Extractor::new` (and thus its own fresh `TrapWriter` and
`LabelGenerator`). -/
def pipelineRunB (file_comps : List String) (root : TSNode) : String :=
  ((Extractor.new file_comps).extract root).trap.format

/-- The sequence of fresh labels a run consumed, in allocation order. -/
def runFreshSequence (file_comps : List String) (root : TSNode) : List Label :=
  (List.range (extractFile file_comps root).trap.labels.counter).map freshL

/-- A helper to build per-file result lists: `ok` successes then `fail`
failures. -/
def mkResults (ok fail : Nat) : List Bool :=
  List.replicate ok true ++ List.replicate fail false

/-- Value of a hex digit character (inverse of `Nat.digitChar` on hex
digits). -/
def hexVal (c : Char) : Nat :=
  if 48 ≤ c.toNat ∧ c.toNat ≤ 57 then c.toNat - 48
  else if 97 ≤ c.toNat ∧ c.toNat ≤ 102 then c.toNat - 87
  else 0

/-- Decoder for `TrapValue::escape_string`: reverses the declared escaping
rule (doubled quote, doubled backslash, `\n`/`\r`/`\t`/`\0`, `\xHH`);
characters outside an escape are taken verbatim, malformed trailing
escapes are left as-is. -/
def unescape : List Char → List Char
  | [] => []
  | [c] => [c]
  | c1 :: c2 :: rest =>
    if c1 = qChar then
      (if c2 = qChar then qChar :: unescape rest else c1 :: unescape (c2 :: rest))
    else if c1 = bsChar then
      (if c2 = bsChar then bsChar :: unescape rest
       else if c2 = 'n' then '\n' :: unescape rest
       else if c2 = 'r' then '\r' :: unescape rest
       else if c2 = 't' then '\t' :: unescape rest
       else if c2 = '0' then Char.ofNat 0 :: unescape rest
       else if c2 = 'x' then
         (match rest with
          | h1 :: h2 :: rest2 =>
              Char.ofNat (16 * hexVal h1 + hexVal h2) :: unescape rest2
          | _ => c1 :: c2 :: rest)
       else c1 :: unescape (c2 :: rest))
    else c1 :: unescape (c2 :: rest)
termination_by l => l.length
decreasing_by all_goals (simp [List.length_cons]; try omega)

/-- String-level decoder for `TrapValue.escape_string`. -/
def unescapeString (s : String) : String :=
  String.mk (unescape s.data)

/-- The child nodes used by the interleaved-fields example: leaves with
distinct kind ids. -/
def c6Child (kindId : Nat) : TSNode :=
  .mk kindId "leafkind" true 0 0 0 1 "c" .nil

/-- Example tree for the field-index claim: one parent of kind `n` with
four children bound, in source order, to fields `a`, `b`, `a`, `b`. -/
def c6Tree : TSNode :=
  .mk 1 "n" true 0 0 0 9 ""
    (.cons (some "a") (c6Child 2)
      (.cons (some "b") (c6Child 3)
        (.cons (some "a") (c6Child 4)
          (.cons (some "b") (c6Child 5) .nil))))


/-- The `folders` rows a cache-missing folder chain produces: one row per
path, labelled by consecutive fresh labels starting at `c0`, in order. -/
def folderRows (c0 : Nat) : List String → List TrapEntry
  | [] => []
  | p :: rest => folderEntry (freshL c0) p :: folderRows (c0 + 1) rest

/-- The `containerparent` rows linking a folder chain: starting from the
entity labelled `pl0`, each of the next `m` entities (with consecutive
fresh labels from `c0`) is linked to its predecessor. -/
def cpRows (pl0 : Label) (c0 : Nat) : Nat → List TrapEntry
  | 0 => []
  | m + 1 => cpEntry pl0 (freshL c0) :: cpRows (freshL c0) (c0 + 1) m

/-- The parent label `emitFolderChain` returns: the initial one if the
list is empty, otherwise the label of the last folder emitted. -/
def chainLast (pl : Option Label) (c0 : Nat) : List String → Option Label
  | [] => pl
  | _ :: rest => chainLast (some (freshL c0)) (c0 + 1) rest

/-- A single leaf node used to instantiate the folder-chain claim on the
concrete path `/x/y/Z.sol`. -/
def c7Leaf : TSNode :=
  .mk 7 "leafkind" true 0 0 0 1 "q" .nil

/-! ## Theorems

Helper lemmas first, then one theorem per claim (named `c<n>_...`), each
with its witness or counterexample where required.
-/

theorem ofDigitsLE_digitsAux (b : Nat) (hb : 2 ≤ b) :
    ∀ fuel n, n ≤ fuel → ofDigitsLE b (digitsAux b fuel n) = n := by
  intro fuel
  induction fuel with
  | zero => intro n hn; interval_cases n; rfl
  | succ fuel ih =>
    intro n hn
    by_cases h0 : n = 0
    · subst h0; rfl
    · have hdiv : n / b < n := Nat.div_lt_self (Nat.pos_of_ne_zero h0) (by omega)
      have hih : ofDigitsLE b (digitsAux b fuel (n / b)) = n / b := ih _ (by omega)
      simp only [digitsAux, h0, if_false]
      change n % b + b * ofDigitsLE b (digitsAux b fuel (n / b)) = n
      rw [hih]
      exact Nat.mod_add_div n b

theorem ofDigitsLE_toDigitsLE (b n : Nat) (hb : 2 ≤ b) :
    ofDigitsLE b (toDigitsLE b n) = n :=
  ofDigitsLE_digitsAux b hb n n (Nat.le_refl n)

theorem digitsAux_lt_base (b : Nat) (hb : 0 < b) :
    ∀ fuel n d, d ∈ digitsAux b fuel n → d < b := by
  intro fuel
  induction fuel with
  | zero => intro n d h; simp [digitsAux] at h
  | succ fuel ih =>
    intro n d h
    by_cases h0 : n = 0
    · subst h0; simp [digitsAux] at h
    · simp only [digitsAux, h0, if_false, List.mem_cons] at h
      rcases h with h | h
      · subst h; exact Nat.mod_lt _ hb
      · exact ih _ _ h

theorem toDigitsLE_lt_base {b n d : Nat} (hb : 0 < b) (h : d ∈ toDigitsLE b n) :
    d < b :=
  digitsAux_lt_base b hb n n d h

theorem digitChar_inj (a b : Nat) (ha : a < 16) (hb : b < 16)
    (h : Nat.digitChar a = Nat.digitChar b) : a = b := by
  interval_cases a <;> interval_cases b <;> simp_all [Nat.digitChar]

theorem map_digitChar_inj :
    ∀ l1 l2 : List Nat, (∀ d ∈ l1, d < 16) → (∀ d ∈ l2, d < 16) →
      l1.map Nat.digitChar = l2.map Nat.digitChar → l1 = l2 := by
  intro l1
  induction l1 with
  | nil => intro l2 _ _ h; cases l2 <;> simp_all
  | cons a l1 ih =>
    intro l2 h1 h2 h
    cases l2 with
    | nil => simp at h
    | cons b l2 =>
      simp only [List.map_cons, List.cons.injEq] at h
      have hab : a = b :=
        digitChar_inj a b (h1 a (by simp)) (h2 b (by simp)) h.1
      have hl : l1 = l2 :=
        ih l2 (fun d hd => h1 d (by simp [hd])) (fun d hd => h2 d (by simp [hd])) h.2
      simp [hab, hl]

theorem toDigitsLE_dec_eq_of_natToDec_eq {m n : Nat} (hm : m ≠ 0) (hn : n ≠ 0)
    (h : natToDec m = natToDec n) : toDigitsLE 10 m = toDigitsLE 10 n := by
  simp only [natToDec, hm, hn, if_false] at h
  have hdata : ((toDigitsLE 10 m).reverse.map Nat.digitChar)
      = ((toDigitsLE 10 n).reverse.map Nat.digitChar) := congrArg String.data h
  have := map_digitChar_inj (toDigitsLE 10 m).reverse (toDigitsLE 10 n).reverse
    (fun d hd => by
      have := toDigitsLE_lt_base (b := 10) (n := m) (by omega) (by simpa using hd)
      omega)
    (fun d hd => by
      have := toDigitsLE_lt_base (b := 10) (n := n) (by omega) (by simpa using hd)
      omega)
    hdata
  have := congrArg List.reverse this
  simpa using this

theorem natToDec_eq_zero_str_iff (n : Nat) : natToDec n = "0" ↔ n = 0 := by
  constructor
  · intro h
    by_contra hn
    simp only [natToDec, hn, if_false] at h
    have hdata : ((toDigitsLE 10 n).reverse.map Nat.digitChar) = ['0'] :=
      congrArg String.data h
    have hrev : (toDigitsLE 10 n).reverse = [0] := by
      apply map_digitChar_inj
      · intro d hd
        have := toDigitsLE_lt_base (b := 10) (n := n) (by omega) (by simpa using hd)
        omega
      · intro d hd; simp at hd; omega
      · simpa [Nat.digitChar] using hdata
    have : toDigitsLE 10 n = [0] := by
      have := congrArg List.reverse hrev
      simpa using this
    have h0 := ofDigitsLE_toDigitsLE 10 n (by omega)
    rw [this] at h0
    simp [ofDigitsLE] at h0
    exact hn h0.symm
  · intro h; subst h; rfl

theorem natToDec_inj : ∀ m n : Nat, natToDec m = natToDec n → m = n := by
  intro m n h
  by_cases hm : m = 0
  · subst hm
    have : natToDec n = "0" := by rw [← h]; rfl
    exact ((natToDec_eq_zero_str_iff n).mp this).symm
  · by_cases hn : n = 0
    · subst hn
      have : natToDec m = "0" := h
      exact (natToDec_eq_zero_str_iff m).mp this
    · have hd := toDigitsLE_dec_eq_of_natToDec_eq hm hn h
      calc m = ofDigitsLE 10 (toDigitsLE 10 m) :=
            (ofDigitsLE_toDigitsLE 10 m (by omega)).symm
      _ = ofDigitsLE 10 (toDigitsLE 10 n) := by rw [hd]
      _ = n := ofDigitsLE_toDigitsLE 10 n (by omega)

theorem string_append_left_cancel {a b c : String} (h : a ++ b = a ++ c) :
    b = c := by
  have := congrArg String.data h
  simp only [String.data_append] at this
  exact String.ext (List.append_cancel_left this)

theorem freshL_inj : ∀ i j : Nat, freshL i = freshL j → i = j := by
  intro i j h
  simp only [freshL, Label.fresh, Label.mk.injEq] at h
  have := natToDec_inj _ _ (string_append_left_cancel h)
  omega

theorem freshL_str_inj : ∀ i j : Nat, (freshL i).str = (freshL j).str → i = j := by
  intro i j h
  exact freshL_inj i j (by cases hif : freshL i; cases hjf : freshL j; simp_all)

theorem freshL_str_not_keyStr (i : Nat) (s : String) (h : KeyStr s) :
    (freshL i).str ≠ s := by
  rcases h with ⟨t, rfl⟩
  intro hcontra
  have hd : ("#" ++ natToDec (10000 + i)).data = ("@\"" ++ t).data :=
    congrArg String.data hcontra
  simp [String.data_append] at hd

theorem freshIter_counter : ∀ (i : Nat) (g : LabelGenerator),
    (freshIter g i).counter = g.counter + i := by
  intro i
  induction i with
  | zero => intro g; rfl
  | succ i ih =>
    intro g
    show (freshIter g.fresh.2 i).counter = g.counter + (i + 1)
    rw [ih]
    simp [LabelGenerator.fresh]
    omega

/-- C3: with `n > 0` files of which `f` fail, the run fails fatally when
`f = n`, fails fatally when `f > n/2` (strict, truncating division), and
succeeds with a warning when `0 < f ≤ n/2`; concretely for 10 files:
3 failures warn, 5 failures (exactly half) warn, 6 failures fail,
10 failures fail. -/
theorem c3_partial_failure_thresholds :
    (∀ results : List Bool,
      0 < results.length →
      (((results.filter (fun r => !r)).length = results.length →
          runVerdict results = RunOutcome.fatalAll)
       ∧ ((results.filter (fun r => !r)).length > results.length / 2 →
          (runVerdict results).isFatal = true)
       ∧ (0 < (results.filter (fun r => !r)).length →
          (results.filter (fun r => !r)).length ≤ results.length / 2 →
          runVerdict results = RunOutcome.okWarn)
       ∧ ((results.filter (fun r => !r)).length ≤ results.length / 2 →
          (runVerdict results).isFatal = false)))
    ∧ runVerdict (mkResults 7 3) = RunOutcome.okWarn
    ∧ runVerdict (mkResults 5 5) = RunOutcome.okWarn
    ∧ runVerdict (mkResults 4 6) = RunOutcome.fatalTooMany
    ∧ runVerdict (mkResults 0 10) = RunOutcome.fatalAll := by
  refine ⟨?_, by decide, by decide, by decide, by decide⟩
  intro results hpos
  simp only [runVerdict]
  split_ifs with h1 h2 h3
  · have h1' : (results.filter (fun r => !r)).length > 0 ∧
        (results.filter (fun r => !r)).length = results.length := by simpa using h1
    have h12 := h1'.2
    exact ⟨fun _ => rfl, fun _ => rfl,
      fun hf hle => by exfalso; omega,
      fun hle => by exfalso; omega⟩
  · have h1' : ¬((results.filter (fun r => !r)).length > 0 ∧
        (results.filter (fun r => !r)).length = results.length) := by simpa using h1
    have h2' : (results.filter (fun r => !r)).length > 0 ∧
        (results.filter (fun r => !r)).length > results.length / 2 := by simpa using h2
    have h22 := h2'.2
    exact ⟨fun he => absurd ⟨h2'.1, he⟩ h1', fun _ => rfl,
      fun hf hle => by exfalso; omega,
      fun hle => by exfalso; omega⟩
  · have h1' : ¬((results.filter (fun r => !r)).length > 0 ∧
        (results.filter (fun r => !r)).length = results.length) := by simpa using h1
    have h2' : ¬((results.filter (fun r => !r)).length > 0 ∧
        (results.filter (fun r => !r)).length > results.length / 2) := by simpa using h2
    have h3' : (results.filter (fun r => !r)).length > 0 := by simpa using h3
    exact ⟨fun he => absurd ⟨h3', he⟩ h1', fun hgt => absurd ⟨h3', hgt⟩ h2',
      fun _ _ => rfl, fun _ => rfl⟩
  · have h3' : ¬(results.filter (fun r => !r)).length > 0 := by simpa using h3
    exact ⟨fun he => by exfalso; omega, fun hgt => by exfalso; omega,
      fun hf _ => by exfalso; omega, fun _ => rfl⟩

/-- C3 witness: concrete instantiation of the threshold theorem at 10
files with 3 failures, discharging its hypotheses. -/
theorem c3_partial_failure_thresholds_witness :
    0 < (mkResults 7 3).length ∧ runVerdict (mkResults 7 3) = RunOutcome.okWarn :=
  ⟨by decide,
   (c3_partial_failure_thresholds.1 (mkResults 7 3) (by decide)).2.2.1
     (by decide) (by decide)⟩

/-- C10: the `i`-th `fresh()` call on a `LabelGenerator` created for any
path returns exactly `#(10000 + i)`; the sequence never repeats a label,
never goes below `#10000`, is identical for every file path, and the
path-derived prefix is never incorporated. -/
theorem c10_fresh_label_sequence :
    (∀ p i, freshNth p i = freshL i)
    ∧ (∀ p i, freshNth p i = ⟨"#" ++ natToDec (10000 + i)⟩)
    ∧ (∀ p q i, freshNth p i = freshNth q i)
    ∧ (∀ p i j, i ≠ j → freshNth p i ≠ freshNth p j)
    ∧ (∀ pfx1 pfx2 i, Label.fresh pfx1 i = Label.fresh pfx2 i)
    ∧ (∀ p i, ∃ m, freshNth p i = ⟨"#" ++ natToDec m⟩ ∧ 10000 ≤ m) := by
  have key : ∀ p i, freshNth p i = freshL i := by
    intro p i
    simp [freshNth, LabelGenerator.fresh, freshIter_counter, LabelGenerator.new,
      freshL, Label.fresh]
  refine ⟨key, ?_, ?_, ?_, ?_, ?_⟩
  · intro p i; rw [key]; rfl
  · intro p q i; rw [key, key]
  · intro p i j hne
    rw [key, key]
    intro h
    exact hne (freshL_inj i j h)
  · intro pfx1 pfx2 i; rfl
  · intro p i
    exact ⟨10000 + i, by rw [key]; rfl, by omega⟩

/-- C10 witness: the first two fresh labels for a concrete path are
`#10000` and `#10001`, and differ. -/
theorem c10_fresh_label_sequence_witness :
    (0 : Nat) ≠ 1 ∧ freshNth "/w/W.sol" 0 ≠ freshNth "/w/W.sol" 1 :=
  ⟨by decide, c10_fresh_label_sequence.2.2.2.1 "/w/W.sol" 0 1 (by decide)⟩

/-- C4: extraction is deterministic.  The embedding is purely functional
(the writer, generator and traversal use no ambient state, and the
hash-map caches are consulted only by key lookup), so two independently
constructed runs over the same source tree and path produce syntactically
identical artifacts and identical fresh-label sequences. -/
theorem c4_determinism : ∀ (file_comps : List String) (root : TSNode),
    pipelineRunA file_comps root = pipelineRunB file_comps root
    ∧ (extractFile file_comps root).trap.labels.counter
        = ((Extractor.new file_comps).extract root).trap.labels.counter
    ∧ runFreshSequence file_comps root
        = (List.range ((Extractor.new file_comps).extract root).trap.labels.counter).map freshL :=
  fun _ _ => ⟨rfl, rfl, rfl⟩

/-- C5 counterexample: the claim says every control character other than
newline, carriage return and tab is escaped as `\xHH`, but the code maps
NUL to the two-character escape `\0`, not `\x00`. -/
theorem c5_counterexample_nul :
    TrapValue.escape_string (String.mk [Char.ofNat 0]) = String.mk [bsChar, '0']
    ∧ String.mk [bsChar, '0'] ≠ String.mk [bsChar, 'x', '0', '0'] := by
  decide

/-- C5 (amended): the tuple-value escaping doubles quotes and backslashes,
maps newline/CR/tab to `\n`/`\r`/`\t`, maps NUL to `\0`, and maps every
other control character to `\xHH`; the key-label escaping instead
backslash-escapes quotes and has no NUL special case (NUL becomes `\x00`);
both pass all non-control non-special characters through unchanged. -/
theorem c5_escaping_amended : ∀ c : Char,
    (c = qChar → escapeChar c = [qChar, qChar])
    ∧ (c = bsChar → escapeChar c = [bsChar, bsChar])
    ∧ (c = '\n' → escapeChar c = [bsChar, 'n'])
    ∧ (c = '\r' → escapeChar c = [bsChar, 'r'])
    ∧ (c = '\t' → escapeChar c = [bsChar, 't'])
    ∧ (c = Char.ofNat 0 → escapeChar c = [bsChar, '0'])
    ∧ (isRustControl c = true → c ≠ '\n' → c ≠ '\r' → c ≠ '\t' →
        c ≠ Char.ofNat 0 → escapeChar c = bsChar :: 'x' :: hexPad2 c.toNat)
    ∧ (isRustControl c = false → c ≠ qChar → c ≠ bsChar → escapeChar c = [c])
    ∧ (c = qChar → keyEscapeChar c = [bsChar, qChar])
    ∧ (c = bsChar → keyEscapeChar c = [bsChar, bsChar])
    ∧ (c = '\n' → keyEscapeChar c = [bsChar, 'n'])
    ∧ (c = '\r' → keyEscapeChar c = [bsChar, 'r'])
    ∧ (c = '\t' → keyEscapeChar c = [bsChar, 't'])
    ∧ (isRustControl c = true → c ≠ '\n' → c ≠ '\r' → c ≠ '\t' →
        keyEscapeChar c = bsChar :: 'x' :: hexPad2 c.toNat)
    ∧ (isRustControl c = false → c ≠ qChar → c ≠ bsChar → keyEscapeChar c = [c])
    ∧ TrapValue.escape_string (String.mk [c]) = String.mk (escapeChar c)
    ∧ Label.escape_string (String.mk [c]) = String.mk (keyEscapeChar c) := by
  intro c
  have hctrl_q : isRustControl c = true → c ≠ qChar := by
    intro h hc; subst hc; exact absurd h (by decide)
  have hctrl_b : isRustControl c = true → c ≠ bsChar := by
    intro h hc; subst hc; exact absurd h (by decide)
  have hnc_n : isRustControl c = false → c ≠ '\n' := by
    intro h hc; subst hc; exact absurd h (by decide)
  have hnc_r : isRustControl c = false → c ≠ '\r' := by
    intro h hc; subst hc; exact absurd h (by decide)
  have hnc_t : isRustControl c = false → c ≠ '\t' := by
    intro h hc; subst hc; exact absurd h (by decide)
  have hnc_0 : isRustControl c = false → c ≠ Char.ofNat 0 := by
    intro h hc; subst hc; exact absurd h (by decide)
  refine ⟨?_, ?_, ?_, ?_, ?_, ?_, ?_, ?_, ?_, ?_, ?_, ?_, ?_, ?_, ?_, ?_, ?_⟩
  · intro h; subst h; rfl
  · intro h; subst h; rfl
  · intro h; subst h; rfl
  · intro h; subst h; rfl
  · intro h; subst h; rfl
  · intro h; subst h; rfl
  · intro h hn hr ht h0
    simp [escapeChar, hctrl_q h, hctrl_b h, hn, hr, ht, h0, h]
  · intro h hq hb
    simp [escapeChar, hq, hb, hnc_n h, hnc_r h, hnc_t h, hnc_0 h, h]
  · intro h; subst h; rfl
  · intro h; subst h; rfl
  · intro h; subst h; rfl
  · intro h; subst h; rfl
  · intro h; subst h; rfl
  · intro h hn hr ht
    simp [keyEscapeChar, hctrl_q h, hctrl_b h, hn, hr, ht, h]
  · intro h hq hb
    simp [keyEscapeChar, hq, hb, hnc_n h, hnc_r h, hnc_t h, h]
  · simp [TrapValue.escape_string]
  · simp [Label.escape_string]

/-- C5 witness: the amended theorem applied to the concrete control
character U+0001, discharging its hypotheses. -/
theorem c5_escaping_amended_witness :
    escapeChar (Char.ofNat 1) = bsChar :: 'x' :: hexPad2 (Char.ofNat 1).toNat :=
  (c5_escaping_amended (Char.ofNat 1)).2.2.2.2.2.2.1 (by decide) (by decide)
    (by decide) (by decide) (by decide)

/-- C2 counterexample: emitting the same file path twice in one writer
returns the same numeric label and declares it once, but appends the
`files(label, path)` row twice — i.e. a duplicate tuple row, contradicting
the claim's "no duplicate tuple rows". -/
theorem c2_counterexample_duplicate_rows :
    ((TrapWriter.new "/t/a.sol").emit_file "/x").1
      = (((TrapWriter.new "/t/a.sol").emit_file "/x").2.emit_file "/x").1
    ∧ ((((TrapWriter.new "/t/a.sol").emit_file "/x").2.emit_file "/x").2.label_defs.countP
        (fun d => d == LabelDef.key ((TrapWriter.new "/t/a.sol").emit_file "/x").1
          (Label.key "/x"))) = 1
    ∧ ((((TrapWriter.new "/t/a.sol").emit_file "/x").2.emit_file "/x").2.entries.countP
        (fun e => e == (⟨"files",
          [TrapValue.label ((TrapWriter.new "/t/a.sol").emit_file "/x").1,
           TrapValue.string "/x"]⟩ : TrapEntry))) = 2
    ∧ (2 : Nat) ≠ 1 := by
  decide

/-- C2 (amended): emitting a file (or folder) path twice in one writer
produces exactly one key-label declaration, returns the same numeric label
both times, appends one `files` (resp. `folders`) row per call — so the
entity row is duplicated, not deduplicated — and preserves all previously
emitted tuples. -/
theorem c2_key_label_dedup_amended :
    ∀ (w : TrapWriter) (p : String),
    alookup w.string_cache (Label.key p).str = none →
    (((w.emit_file p).1 = ((w.emit_file p).2.emit_file p).1)
     ∧ ((w.emit_file p).2.emit_file p).2.label_defs
         = w.label_defs ++ [LabelDef.key (w.emit_file p).1 (Label.key p)]
     ∧ ((w.emit_file p).2.emit_file p).2.entries
         = w.entries
           ++ [⟨"files", [TrapValue.label (w.emit_file p).1, TrapValue.string p]⟩,
               ⟨"files", [TrapValue.label (w.emit_file p).1, TrapValue.string p]⟩]
     ∧ (∀ e ∈ w.entries, e ∈ ((w.emit_file p).2.emit_file p).2.entries))
    ∧ (((w.emit_folder p).1 = ((w.emit_folder p).2.emit_folder p).1)
     ∧ ((w.emit_folder p).2.emit_folder p).2.label_defs
         = w.label_defs ++ [LabelDef.key (w.emit_folder p).1 (Label.key p)]
     ∧ ((w.emit_folder p).2.emit_folder p).2.entries
         = w.entries
           ++ [⟨"folders", [TrapValue.label (w.emit_folder p).1, TrapValue.string p]⟩,
               ⟨"folders", [TrapValue.label (w.emit_folder p).1, TrapValue.string p]⟩]
     ∧ (∀ e ∈ w.entries, e ∈ ((w.emit_folder p).2.emit_folder p).2.entries)) := by
  intro w p h
  constructor
  · have h1 : ((w.emit_file p).2.emit_file p).2.entries
        = w.entries
          ++ [⟨"files", [TrapValue.label (w.emit_file p).1, TrapValue.string p]⟩,
              ⟨"files", [TrapValue.label (w.emit_file p).1, TrapValue.string p]⟩] := by
      simp [TrapWriter.emit_file, TrapWriter.define_key_label, h,
        TrapWriter.emit, LabelGenerator.key, alookup]
    refine ⟨?_, ?_, h1, ?_⟩
    · simp [TrapWriter.emit_file, TrapWriter.define_key_label, h,
        TrapWriter.emit, LabelGenerator.key, alookup]
    · simp [TrapWriter.emit_file, TrapWriter.define_key_label, h,
        TrapWriter.emit, LabelGenerator.key, alookup]
    · intro e he; rw [h1]; exact List.mem_append_left _ he
  · have h1 : ((w.emit_folder p).2.emit_folder p).2.entries
        = w.entries
          ++ [⟨"folders", [TrapValue.label (w.emit_folder p).1, TrapValue.string p]⟩,
              ⟨"folders", [TrapValue.label (w.emit_folder p).1, TrapValue.string p]⟩] := by
      simp [TrapWriter.emit_folder, TrapWriter.define_key_label, h,
        TrapWriter.emit, LabelGenerator.key, alookup]
    refine ⟨?_, ?_, h1, ?_⟩
    · simp [TrapWriter.emit_folder, TrapWriter.define_key_label, h,
        TrapWriter.emit, LabelGenerator.key, alookup]
    · simp [TrapWriter.emit_folder, TrapWriter.define_key_label, h,
        TrapWriter.emit, LabelGenerator.key, alookup]
    · intro e he; rw [h1]; exact List.mem_append_left _ he

/-- C2 witness: the amended theorem applied to a fresh writer and a
concrete path, discharging the cache-miss hypothesis. -/
theorem c2_key_label_dedup_amended_witness :
    alookup (TrapWriter.new "/q/b.sol").string_cache (Label.key "/z").str = none
    ∧ ((TrapWriter.new "/q/b.sol").emit_file "/z").1
        = (((TrapWriter.new "/q/b.sol").emit_file "/z").2.emit_file "/z").1 :=
  ⟨rfl, (c2_key_label_dedup_amended (TrapWriter.new "/q/b.sol") "/z" rfl).1.1⟩

theorem digitsAux_length_le (b : Nat) (hb : 2 ≤ b) :
    ∀ fuel n k, n < b ^ k → (digitsAux b fuel n).length ≤ k := by
  intro fuel
  induction fuel with
  | zero => intro n k _; simp [digitsAux]
  | succ fuel ih =>
    intro n k hk
    by_cases h0 : n = 0
    · subst h0; simp [digitsAux]
    · cases k with
      | zero => simp at hk; omega
      | succ k =>
        simp only [digitsAux, h0, if_false, List.length_cons]
        have hdiv : n / b < b ^ k := by
          rw [Nat.div_lt_iff_lt_mul (by omega)]
          calc n < b ^ (k + 1) := hk
          _ = b ^ k * b := by rw [Nat.pow_succ]
        have := ih (n / b) k hdiv
        omega

theorem digitsAux_length_ge (b : Nat) (hb : 2 ≤ b) :
    ∀ fuel n k, n ≤ fuel → b ^ k ≤ n → k < (digitsAux b fuel n).length := by
  intro fuel
  induction fuel with
  | zero =>
    intro n k hn hk
    have : 0 < b ^ k := Nat.pos_pow_of_pos k (by omega)
    omega
  | succ fuel ih =>
    intro n k hn hk
    have h0 : n ≠ 0 := by
      have : 0 < b ^ k := Nat.pos_pow_of_pos k (by omega)
      omega
    simp only [digitsAux, h0, if_false, List.length_cons]
    cases k with
    | zero => omega
    | succ k =>
      have hdiv : b ^ k ≤ n / b := by
        rw [Nat.le_div_iff_mul_le (by omega)]
        calc b ^ k * b = b ^ (k + 1) := by rw [Nat.pow_succ]
        _ ≤ n := hk
      have hlt : n / b < n := Nat.div_lt_self (by omega) (by omega)
      have := ih (n / b) k (by omega) hdiv
      omega

theorem hexVal_digitChar (d : Nat) (hd : d < 16) :
    hexVal (Nat.digitChar d) = d := by
  interval_cases d <;> rfl

theorem foldl_hex_digits :
    ∀ (ds : List Nat) (acc : Nat), (∀ d ∈ ds, d < 16) →
    ((ds.reverse.map Nat.digitChar).foldl (fun a c => 16 * a + hexVal c) acc)
      = acc * 16 ^ ds.length + ofDigitsLE 16 ds := by
  intro ds
  induction ds with
  | nil => intro acc _; simp [ofDigitsLE]
  | cons d rest ih =>
    intro acc hall
    have hd : d < 16 := hall d (by simp)
    calc ((d :: rest).reverse.map Nat.digitChar).foldl
          (fun a c => 16 * a + hexVal c) acc
        = ((rest.reverse.map Nat.digitChar) ++ [Nat.digitChar d]).foldl
          (fun a c => 16 * a + hexVal c) acc := by
          simp
      _ = 16 * ((rest.reverse.map Nat.digitChar).foldl
            (fun a c => 16 * a + hexVal c) acc) + hexVal (Nat.digitChar d) := by
          rw [List.foldl_append]; rfl
      _ = 16 * (acc * 16 ^ rest.length + ofDigitsLE 16 rest) + d := by
          rw [ih acc (fun x hx => hall x (by simp [hx])), hexVal_digitChar d hd]
      _ = acc * 16 ^ (d :: rest).length + ofDigitsLE 16 (d :: rest) := by
          simp only [List.length_cons, ofDigitsLE, List.foldr_cons]
          rw [Nat.pow_succ]
          change 16 * (acc * 16 ^ rest.length + ofDigitsLE 16 rest)
            + d = acc * (16 ^ rest.length * 16) + (d + 16 * ofDigitsLE 16 rest)
          ring

theorem be32_lt (n : Nat) : ∀ x ∈ be32 n, x < 256 := by
  intro x hx
  simp only [be32, List.mem_cons, List.not_mem_nil, or_false] at hx
  rcases hx with h | h | h | h <;> subst h <;>
    exact Nat.lt_succ_of_le (Nat.and_le_right)

theorem sha256_bytes_lt (m : List Nat) : ∀ x ∈ sha256 m, x < 256 := by
  intro x hx
  simp only [sha256, List.mem_flatMap] at hx
  rcases hx with ⟨w, _, hw⟩
  exact be32_lt w x hw

theorem u64fold_lt :
    ∀ (l : List Nat) (acc k : Nat), (∀ x ∈ l, x < 256) → acc < 2 ^ k →
    l.foldl (fun a b => (a <<< 8) ||| b) acc < 2 ^ (k + 8 * l.length) := by
  intro l
  induction l with
  | nil => intro acc k _ h; simpa using h
  | cons x l ih =>
    intro acc k hall hacc
    have hx : x < 256 := hall x (by simp)
    have hstep : (acc <<< 8) ||| x < 2 ^ (k + 8) := by
      apply Nat.or_lt_two_pow
      · rw [Nat.shiftLeft_eq]
        calc acc * 2 ^ 8 < 2 ^ k * 2 ^ 8 := by
              have h2 : (0 : Nat) < 2 ^ 8 := by norm_num
              exact (Nat.mul_lt_mul_right h2).mpr hacc
        _ = 2 ^ (k + 8) := by rw [Nat.pow_add]
      · calc x < 256 := hx
        _ = 2 ^ 8 := by norm_num
        _ ≤ 2 ^ (k + 8) := Nat.pow_le_pow_right (by norm_num) (by omega)
    have := ih ((acc <<< 8) ||| x) (k + 8) (fun y hy => hall y (by simp [hy])) hstep
    have harr : k + 8 + 8 * l.length = k + 8 * (l.length + 1) := by ring
    rw [harr] at this
    simpa using this

theorem u64Of8_lt (bytes : List Nat) (h : ∀ x ∈ bytes, x < 256) :
    u64Of8 bytes < 2 ^ 64 := by
  have htake : ∀ x ∈ bytes.take 8, x < 256 := fun x hx => h x (List.mem_of_mem_take hx)
  have hlen : (bytes.take 8).length ≤ 8 := by
    simp [List.length_take]
  have := u64fold_lt (bytes.take 8) 0 0 htake (by norm_num)
  calc u64Of8 bytes < 2 ^ (0 + 8 * (bytes.take 8).length) := this
  _ ≤ 2 ^ 64 := Nat.pow_le_pow_right (by norm_num) (by omega)

set_option maxRecDepth 100000 in
/-- C9 counterexample: for the path `/a/1.sol` the first SHA-256 byte is
`0x09 < 0x10`, so the `format!("{:x}", ...)` rendering of the first 8
hash bytes has 15 characters, not the claimed uniform 16 with leading
zeros. -/
theorem c9_counterexample_short_hash :
    trapHashHex "/a/1.sol" = "9ff9aede4cb3266"
    ∧ (trapHashHex "/a/1.sol").length = 15
    ∧ ((trapHashHex "/a/1.sol").length = 16 → False) := by
  have h : trapHashHex "/a/1.sol" = "9ff9aede4cb3266" := by decide
  refine ⟨h, ?_, ?_⟩
  · rw [h]; decide
  · intro h16
    rw [h] at h16
    exact absurd h16 (by decide)

/-- C9 (amended): the artifact path is the TRAP directory joined with the
first two characters of the hash rendering, then the rendering plus the
compression extension; the rendering is the minimal (unpadded) lowercase
hex of the 64-bit value of the first 8 SHA-256 bytes of the UTF-8 path:
at most 16 characters, exactly 16 iff that value is at least `2^60`
(i.e. iff the first hash byte is at least 0x10), and decoding the hex
recovers the value. -/
theorem c9_trap_path_amended :
    ∀ (trap_dir source_file : String) (c : Compression),
    compute_trap_path trap_dir source_file c
      = trap_dir ++ "/" ++ (trapHashHex source_file).take 2 ++ "/"
        ++ (trapHashHex source_file ++ c.extension)
    ∧ (trapHashHex source_file).length ≤ 16
    ∧ ((trapHashHex source_file).length = 16
        ↔ 2 ^ 60 ≤ u64Of8 (sha256 (utf8Encode source_file)))
    ∧ (trapHashHex source_file).data.foldl (fun a ch => 16 * a + hexVal ch) 0
        = u64Of8 (sha256 (utf8Encode source_file)) := by
  intro trap_dir source_file c
  set n := u64Of8 (sha256 (utf8Encode source_file)) with hn
  have hn64 : n < 2 ^ 64 := u64Of8_lt _ (sha256_bytes_lt _)
  have hdigits_lt : ∀ d ∈ toDigitsLE 16 n, d < 16 :=
    fun d hd => toDigitsLE_lt_base (by omega) hd
  have hlen : ∀ m : Nat, m ≠ 0 → (natToHex m).length = (toDigitsLE 16 m).length := by
    intro m hm
    simp [natToHex, hm, String.length]
  constructor
  · rfl
  refine ⟨?_, ⟨?_, ?_⟩, ?_⟩
  · by_cases h0 : n = 0
    · rw [show trapHashHex source_file = natToHex n from rfl, h0]; decide
    · rw [show trapHashHex source_file = natToHex n from rfl, hlen n h0]
      exact digitsAux_length_le 16 (by omega) n n 16 (by norm_num at hn64 ⊢; omega)
  · intro h16
    by_contra hlt
    by_cases h0 : n = 0
    · rw [show trapHashHex source_file = natToHex n from rfl, h0] at h16
      simp [natToHex, String.length] at h16
    · rw [show trapHashHex source_file = natToHex n from rfl, hlen n h0] at h16
      have := digitsAux_length_le 16 (by omega) n n 15 (by
        have : (16 : Nat) ^ 15 = 2 ^ 60 := by norm_num
        omega)
      simp only [toDigitsLE] at h16
      omega
  · intro hge
    have h0 : n ≠ 0 := by
      have : (0 : Nat) < 2 ^ 60 := by norm_num
      omega
    have hle : (natToHex n).length ≤ 16 := by
      rw [hlen n h0]
      exact digitsAux_length_le 16 (by omega) n n 16 (by norm_num at hn64 ⊢; omega)
    have hgt : 15 < (natToHex n).length := by
      rw [hlen n h0]
      exact digitsAux_length_ge 16 (by omega) n n 15 (Nat.le_refl n) (by
        have : (16 : Nat) ^ 15 = 2 ^ 60 := by norm_num
        omega)
    rw [show trapHashHex source_file = natToHex n from rfl]
    omega
  · by_cases h0 : n = 0
    · rw [show trapHashHex source_file = natToHex n from rfl, h0]; decide
    · rw [show trapHashHex source_file = natToHex n from rfl]
      simp only [natToHex, h0, if_false]
      have hfold := foldl_hex_digits (toDigitsLE 16 n) 0 hdigits_lt
      rw [hfold]
      simpa using ofDigitsLE_toDigitsLE 16 n (by omega)

theorem unescape_nil : unescape [] = [] := by
  conv_lhs => rw [unescape.eq_def]

theorem unescape_single (c : Char) : unescape [c] = [c] := by
  conv_lhs => rw [unescape.eq_def]

theorem unescape_qq (t : List Char) :
    unescape (qChar :: qChar :: t) = qChar :: unescape t := by
  conv_lhs => rw [unescape.eq_def]
  simp

theorem unescape_bb (t : List Char) :
    unescape (bsChar :: bsChar :: t) = bsChar :: unescape t := by
  conv_lhs => rw [unescape.eq_def]
  simp [show bsChar ≠ qChar from by decide]

theorem unescape_bn (t : List Char) :
    unescape (bsChar :: 'n' :: t) = '\n' :: unescape t := by
  conv_lhs => rw [unescape.eq_def]
  simp [show bsChar ≠ qChar from by decide, show ('n' : Char) ≠ bsChar from by decide]

theorem unescape_br (t : List Char) :
    unescape (bsChar :: 'r' :: t) = '\r' :: unescape t := by
  conv_lhs => rw [unescape.eq_def]
  simp [show bsChar ≠ qChar from by decide, show ('r' : Char) ≠ bsChar from by decide,
    show ('r' : Char) ≠ 'n' from by decide]

theorem unescape_bt (t : List Char) :
    unescape (bsChar :: 't' :: t) = '\t' :: unescape t := by
  conv_lhs => rw [unescape.eq_def]
  simp [show bsChar ≠ qChar from by decide, show ('t' : Char) ≠ bsChar from by decide,
    show ('t' : Char) ≠ 'n' from by decide, show ('t' : Char) ≠ 'r' from by decide]

theorem unescape_b0 (t : List Char) :
    unescape (bsChar :: '0' :: t) = Char.ofNat 0 :: unescape t := by
  conv_lhs => rw [unescape.eq_def]
  simp [show bsChar ≠ qChar from by decide, show ('0' : Char) ≠ bsChar from by decide,
    show ('0' : Char) ≠ 'n' from by decide, show ('0' : Char) ≠ 'r' from by decide,
    show ('0' : Char) ≠ 't' from by decide]

theorem unescape_bx (d1 d2 : Char) (t : List Char) :
    unescape (bsChar :: 'x' :: d1 :: d2 :: t)
      = Char.ofNat (16 * hexVal d1 + hexVal d2) :: unescape t := by
  conv_lhs => rw [unescape.eq_def]
  simp [show bsChar ≠ qChar from by decide, show ('x' : Char) ≠ bsChar from by decide,
    show ('x' : Char) ≠ 'n' from by decide, show ('x' : Char) ≠ 'r' from by decide,
    show ('x' : Char) ≠ 't' from by decide, show ('x' : Char) ≠ '0' from by decide]

theorem unescape_default (c c2 : Char) (r : List Char)
    (hq : c ≠ qChar) (hb : c ≠ bsChar) :
    unescape (c :: c2 :: r) = c :: unescape (c2 :: r) := by
  conv in unescape (c :: c2 :: r) => rw [unescape.eq_def]
  simp [hq, hb]

theorem unescape_escapeChar (c : Char) (t : List Char) :
    unescape (escapeChar c ++ t) = c :: unescape t := by
  by_cases hq : c = qChar
  · subst hq
    rw [show escapeChar qChar = [qChar, qChar] from by decide]
    exact unescape_qq t
  · by_cases hb : c = bsChar
    · subst hb
      rw [show escapeChar bsChar = [bsChar, bsChar] from by decide]
      exact unescape_bb t
    · by_cases hn : c = '\n'
      · subst hn
        rw [show escapeChar '\n' = [bsChar, 'n'] from by decide]
        exact unescape_bn t
      · by_cases hr : c = '\r'
        · subst hr
          rw [show escapeChar '\r' = [bsChar, 'r'] from by decide]
          exact unescape_br t
        · by_cases ht : c = '\t'
          · subst ht
            rw [show escapeChar '\t' = [bsChar, 't'] from by decide]
            exact unescape_bt t
          · by_cases h0 : c = Char.ofNat 0
            · subst h0
              rw [show escapeChar (Char.ofNat 0) = [bsChar, '0'] from by decide]
              rw [show ([bsChar, '0'] : List Char) ++ t = bsChar :: '0' :: t from rfl]
              exact unescape_b0 t
            · by_cases hc : isRustControl c = true
              · have hlt : c.toNat < 256 := by
                  simp only [isRustControl, Bool.or_eq_true, decide_eq_true_eq,
                    Bool.and_eq_true] at hc
                  omega
                have hesc : escapeChar c = bsChar :: 'x' :: hexPad2 c.toNat := by
                  simp [escapeChar, hq, hb, hn, hr, ht, h0, hc]
                rw [hesc]
                show unescape (bsChar :: 'x' :: Nat.digitChar (c.toNat / 16 % 16)
                  :: Nat.digitChar (c.toNat % 16) :: t) = c :: unescape t
                rw [unescape_bx]
                rw [hexVal_digitChar _ (by omega), hexVal_digitChar _ (by omega)]
                rw [show 16 * (c.toNat / 16 % 16) + c.toNat % 16 = c.toNat from by omega]
                rw [Char.ofNat_toNat]
              · have hesc : escapeChar c = [c] := by
                  simp [escapeChar, hq, hb, hn, hr, ht, h0, hc]
                rw [hesc]
                cases t with
                | nil => simp [unescape_single, unescape_nil]
                | cons c2 r =>
                    rw [show ([c] : List Char) ++ c2 :: r = c :: c2 :: r from rfl]
                    exact unescape_default c c2 r hq hb

theorem unescape_flatMap_escapeChar :
    ∀ l : List Char, unescape (l.flatMap escapeChar) = l := by
  intro l
  induction l with
  | nil => exact unescape_nil
  | cons c rest ih =>
    rw [List.flatMap_cons, unescape_escapeChar, ih]

/-- C8: the tuple-value escaping is invertible: the declared decoder
recovers every source string byte-for-byte (so the escaping is injective),
in particular for a string containing a double-quote, a backslash and a
newline. -/
theorem c8_escape_string_roundtrip :
    (∀ s : String, unescapeString (TrapValue.escape_string s) = s)
    ∧ Function.Injective TrapValue.escape_string
    ∧ unescapeString (TrapValue.escape_string (String.mk [qChar, bsChar, '\n']))
        = String.mk [qChar, bsChar, '\n'] := by
  have main : ∀ s : String, unescapeString (TrapValue.escape_string s) = s := by
    intro s
    apply String.ext
    show unescape (s.data.flatMap escapeChar) = s.data
    exact unescape_flatMap_escapeChar s.data
  refine ⟨main, fun a b h => ?_, main _⟩
  have := congrArg unescapeString h
  rwa [main, main] at this

theorem label_fresh_eq_freshL (pfx : String) (n : Nat) :
    Label.fresh pfx n = freshL n := rfl

theorem declaredL_append_left {defs ds : List LabelDef} {l : Label}
    (h : DeclaredL defs l) : DeclaredL (defs ++ ds) l := by
  rcases h with ⟨d, hd, hdecl⟩
  exact ⟨d, List.mem_append_left _ hd, hdecl⟩

theorem alookup_some_mem {α : Type} :
    ∀ (m : List (String × α)) (k : String) (v : α),
    alookup m k = some v → (k, v) ∈ m := by
  intro m
  induction m with
  | nil => intro k v h; simp [alookup] at h
  | cons p rest ih =>
    intro k v h
    obtain ⟨k', v'⟩ := p
    simp only [alookup] at h
    by_cases hk : k' = k
    · rw [if_pos hk] at h
      subst hk
      cases h
      exact List.mem_cons_self _ _
    · rw [if_neg hk] at h
      exact List.mem_cons_of_mem _ (ih k v h)

theorem winv_not_contains (w : TrapWriter) (h : WInv w) :
    w.defined_labels.contains (freshL w.labels.counter).str = false := by
  cases hb : w.defined_labels.contains (freshL w.labels.counter).str
  · rfl
  · exfalso
    have hmem : (freshL w.labels.counter).str ∈ w.defined_labels :=
      List.elem_iff.mp hb
    rcases h.2.1 _ hmem with ⟨j, hj, heq⟩ | hkey
    · have := freshL_str_inj _ _ heq
      omega
    · exact freshL_str_not_keyStr _ _ hkey rfl

theorem fresh_label_spec (w : TrapWriter) (h : WInv w) :
    w.fresh_label.1 = freshL w.labels.counter
    ∧ w.fresh_label.2.label_defs
        = w.label_defs ++ [LabelDef.fresh (freshL w.labels.counter)]
    ∧ w.fresh_label.2.defined_labels
        = (freshL w.labels.counter).str :: w.defined_labels
    ∧ w.fresh_label.2.entries = w.entries
    ∧ w.fresh_label.2.string_cache = w.string_cache
    ∧ w.fresh_label.2.labels.counter = w.labels.counter + 1 := by
  have hc := winv_not_contains w h
  unfold TrapWriter.fresh_label TrapWriter.define_fresh_label
  simp only [LabelGenerator.fresh, label_fresh_eq_freshL]
  rw [show ({ w with labels := { pfx := w.labels.pfx, counter := w.labels.counter + 1 } }
        : TrapWriter).defined_labels = w.defined_labels from rfl]
  rw [hc]
  simp

theorem winv_fresh_label (w : TrapWriter) (h : WInv w) :
    WInv w.fresh_label.2
    ∧ Declared w.fresh_label.2 w.fresh_label.1
    ∧ (∀ l, Declared w l → Declared w.fresh_label.2 l) := by
  obtain ⟨hfst, hdefs, hdefined, hentries, hcache, hcounter⟩ := fresh_label_spec w h
  obtain ⟨h1, h2, h3, h4⟩ := h
  have hmono : ∀ l, Declared w l → Declared w.fresh_label.2 l := by
    intro l hl
    unfold Declared at hl ⊢
    rw [hdefs]
    exact declaredL_append_left hl
  refine ⟨⟨?_, ?_, ?_, ?_⟩, ?_, hmono⟩
  · intro d hd
    rw [hdefs] at hd
    rcases List.mem_append.mp hd with hd | hd
    · obtain ⟨j, hj, hjd⟩ := h1 d hd
      exact ⟨j, by omega, hjd⟩
    · simp at hd
      subst hd
      exact ⟨w.labels.counter, by omega, rfl⟩
  · intro s hs
    rw [hdefined] at hs
    rcases List.mem_cons.mp hs with hs | hs
    · exact Or.inl ⟨w.labels.counter, by omega, hs⟩
    · rcases h2 s hs with ⟨j, hj, hjs⟩ | hk
      · exact Or.inl ⟨j, by omega, hjs⟩
      · exact Or.inr hk
  · intro p hp
    rw [hcache] at hp
    exact hmono _ (h3 p hp)
  · intro e he l hl
    rw [hentries] at he
    exact hmono _ (h4 e he l hl)
  · unfold Declared
    rw [hfst, hdefs]
    exact ⟨LabelDef.fresh (freshL w.labels.counter), by simp, rfl⟩

theorem declared_emit (w : TrapWriter) (table : String) (values : List TrapValue)
    (l : Label) : Declared (w.emit table values) l ↔ Declared w l := Iff.rfl

theorem winv_emit (w : TrapWriter) (table : String) (values : List TrapValue)
    (h : WInv w)
    (hrefs : ∀ l ∈ entryRefs ⟨table, values⟩, Declared w l) :
    WInv (w.emit table values) := by
  obtain ⟨h1, h2, h3, h4⟩ := h
  refine ⟨h1, h2, h3, ?_⟩
  intro e he l hl
  rcases List.mem_append.mp he with he | he
  · exact h4 e he l hl
  · simp at he
    subst he
    exact hrefs l hl

theorem define_key_hit (w : TrapWriter) (kl : Label) (l : Label)
    (h : alookup w.string_cache kl.str = some l) :
    w.define_key_label kl = (l, w) := by
  unfold TrapWriter.define_key_label
  rw [h]

theorem define_key_miss (w : TrapWriter) (kl : Label)
    (h : alookup w.string_cache kl.str = none) :
    w.define_key_label kl
      = (freshL w.labels.counter,
         { w with
             labels := { pfx := w.labels.pfx, counter := w.labels.counter + 1 },
             label_defs := w.label_defs
               ++ [LabelDef.key (freshL w.labels.counter) kl],
             defined_labels := kl.str :: w.defined_labels,
             string_cache := (kl.str, freshL w.labels.counter) :: w.string_cache }) := by
  unfold TrapWriter.define_key_label
  rw [h]
  simp [LabelGenerator.fresh, label_fresh_eq_freshL]

theorem winv_define_key (w : TrapWriter) (kl : Label) (h : WInv w)
    (hk : KeyStr kl.str) :
    WInv (w.define_key_label kl).2
    ∧ Declared (w.define_key_label kl).2 (w.define_key_label kl).1
    ∧ (∀ l, Declared w l → Declared (w.define_key_label kl).2 l)
    ∧ (w.define_key_label kl).2.entries = w.entries
    ∧ w.labels.counter ≤ (w.define_key_label kl).2.labels.counter := by
  cases hl : alookup w.string_cache kl.str with
  | some l =>
    rw [define_key_hit w kl l hl]
    exact ⟨h, h.2.2.1 (kl.str, l) (alookup_some_mem _ _ _ hl),
      fun _ hd => hd, rfl, Nat.le_refl _⟩
  | none =>
    rw [define_key_miss w kl hl]
    dsimp only
    obtain ⟨h1, h2, h3, h4⟩ := h
    have hmono : ∀ l, Declared w l →
        DeclaredL (w.label_defs ++ [LabelDef.key (freshL w.labels.counter) kl]) l :=
      fun l hl' => declaredL_append_left hl'
    refine ⟨⟨?_, ?_, ?_, ?_⟩, ?_, fun l hl' => hmono l hl', rfl,
      by show w.labels.counter ≤ w.labels.counter + 1; omega⟩
    · intro d hd
      rcases List.mem_append.mp hd with hd | hd
      · obtain ⟨j, hj, hjd⟩ := h1 d hd
        exact ⟨j, by show j < w.labels.counter + 1; omega, hjd⟩
      · simp at hd
        subst hd
        exact ⟨w.labels.counter, by show w.labels.counter < w.labels.counter + 1; omega, rfl⟩
    · intro s hs
      rcases List.mem_cons.mp hs with hs | hs
      · subst hs
        exact Or.inr hk
      · rcases h2 s hs with ⟨j, hj, hjs⟩ | hks
        · exact Or.inl ⟨j, by show j < w.labels.counter + 1; omega, hjs⟩
        · exact Or.inr hks
    · intro p hp
      rcases List.mem_cons.mp hp with hp | hp
      · subst hp
        exact ⟨LabelDef.key (freshL w.labels.counter) kl, by simp, rfl⟩
      · exact hmono _ (h3 p hp)
    · intro e he l hl'
      exact hmono _ (h4 e he l hl')
    · exact ⟨LabelDef.key (freshL w.labels.counter) kl, by simp, rfl⟩

theorem keyStr_label_key (content : String) : KeyStr (Label.key content).str := by
  refine ⟨Label.escape_string content ++ "\"", ?_⟩
  show "@\"" ++ Label.escape_string content ++ "\"" = "@\"" ++ (Label.escape_string content ++ "\"")
  rw [String.append_assoc]

theorem winv_emit_file (w : TrapWriter) (p : String) (h : WInv w) :
    WInv (w.emit_file p).2
    ∧ Declared (w.emit_file p).2 (w.emit_file p).1
    ∧ (∀ l, Declared w l → Declared (w.emit_file p).2 l)
    ∧ w.labels.counter ≤ (w.emit_file p).2.labels.counter := by
  obtain ⟨hw, hd, hm, he, hc⟩ := winv_define_key w (Label.key p) h (keyStr_label_key p)
  exact ⟨winv_emit _ _ _ hw (by
      intro l hl
      simp only [entryRefs, List.filterMap_cons, List.filterMap_nil] at hl
      simp at hl
      subst hl
      exact hd),
    hd, fun l hl => hm l hl, hc⟩

theorem winv_emit_folder (w : TrapWriter) (p : String) (h : WInv w) :
    WInv (w.emit_folder p).2
    ∧ Declared (w.emit_folder p).2 (w.emit_folder p).1
    ∧ (∀ l, Declared w l → Declared (w.emit_folder p).2 l)
    ∧ w.labels.counter ≤ (w.emit_folder p).2.labels.counter := by
  obtain ⟨hw, hd, hm, he, hc⟩ := winv_define_key w (Label.key p) h (keyStr_label_key p)
  exact ⟨winv_emit _ _ _ hw (by
      intro l hl
      simp only [entryRefs, List.filterMap_cons, List.filterMap_nil] at hl
      simp at hl
      subst hl
      exact hd),
    hd, fun l hl => hm l hl, hc⟩

theorem emit_location_spec (w : TrapWriter) (fl : Label) (a b c d : Nat)
    (h : WInv w) :
    (w.emit_location fl a b c d).1 = freshL w.labels.counter
    ∧ (w.emit_location fl a b c d).2.entries
        = w.entries ++ [⟨"locations_default",
            [TrapValue.label (freshL w.labels.counter), TrapValue.label fl,
             TrapValue.uint a, TrapValue.uint b, TrapValue.uint c,
             TrapValue.uint d]⟩]
    ∧ (w.emit_location fl a b c d).2.label_defs
        = w.label_defs ++ [LabelDef.fresh (freshL w.labels.counter)]
    ∧ (w.emit_location fl a b c d).2.labels.counter = w.labels.counter + 1
    ∧ (w.emit_location fl a b c d).2.string_cache = w.string_cache := by
  obtain ⟨h1, h2, h3, h4, h5, h6⟩ := fresh_label_spec w h
  unfold TrapWriter.emit_location TrapWriter.emit
  dsimp only
  rw [h1, h4]
  exact ⟨rfl, rfl, h2, h6, h5⟩

theorem winv_emit_location (w : TrapWriter) (fl : Label) (a b c d : Nat)
    (h : WInv w) (hfl : Declared w fl) :
    WInv (w.emit_location fl a b c d).2
    ∧ Declared (w.emit_location fl a b c d).2 (w.emit_location fl a b c d).1
    ∧ (∀ l, Declared w l → Declared (w.emit_location fl a b c d).2 l) := by
  obtain ⟨hw1, hd1, hm1⟩ := winv_fresh_label w h
  unfold TrapWriter.emit_location
  dsimp only
  refine ⟨winv_emit _ _ _ hw1 ?_, hd1, fun l hl => hm1 l hl⟩
  intro l hl
  simp only [entryRefs, List.filterMap_cons, List.filterMap_nil] at hl
  simp at hl
  rcases hl with rfl | rfl
  · exact hd1
  · exact hm1 _ hfl

theorem winv_new (path : String) : WInv (TrapWriter.new path) := by
  refine ⟨?_, ?_, ?_, ?_⟩ <;> intro x hx <;> simp [TrapWriter.new] at hx

theorem winv_nodePrelude (fl : Label) (w : TrapWriter) (kindId : Nat)
    (kind : String) (named : Bool) (sr sc er ec : Nat) (text : String)
    (cc : Nat) (pinfo : Option (Label × Nat)) (h : WInv w)
    (hfl : Declared w fl)
    (hpi : ∀ pl idx, pinfo = some (pl, idx) → Declared w pl) :
    WInv (nodePrelude fl w kindId kind named sr sc er ec text cc pinfo).2
    ∧ Declared (nodePrelude fl w kindId kind named sr sc er ec text cc pinfo).2
        (nodePrelude fl w kindId kind named sr sc er ec text cc pinfo).1
    ∧ (∀ l, Declared w l →
        Declared (nodePrelude fl w kindId kind named sr sc er ec text cc pinfo).2 l)
    ∧ (nodePrelude fl w kindId kind named sr sc er ec text cc pinfo).1
        = freshL w.labels.counter
    ∧ w.labels.counter
        < (nodePrelude fl w kindId kind named sr sc er ec text cc pinfo).2.labels.counter := by
  obtain ⟨hw1, hd1, hm1⟩ := winv_fresh_label w h
  have hfst := (fresh_label_spec w h).1
  unfold nodePrelude
  dsimp only
  set l0 := w.fresh_label.1 with hL0
  set wA := w.fresh_label.2 with hA
  set tname := if named then "solidity_" ++ normalize_kind kind ++ "_def"
    else "solidity_token_def" with hTN
  set wB := wA.emit tname [TrapValue.label l0] with hB
  set wC := wB.emit "solidity_ast_node_info"
    [TrapValue.label l0, TrapValue.uint kindId] with hC
  set pD := wC.emit_location fl (sr + 1) (sc + 1) (er + 1) (ec + 1) with hD
  set wE := pD.2.emit "solidity_ast_node_location"
    [TrapValue.label l0, TrapValue.label pD.1] with hE
  have hwB : WInv wB := winv_emit wA tname [TrapValue.label l0] hw1 (by
    intro l hl
    simp only [entryRefs, List.filterMap_cons, List.filterMap_nil] at hl
    simp at hl
    subst hl
    exact hd1)
  have hwC : WInv wC := winv_emit wB _ _ hwB (by
    intro l hl
    simp only [entryRefs, List.filterMap_cons, List.filterMap_nil] at hl
    simp at hl
    subst hl
    exact hd1)
  have hdC : Declared wC fl := hm1 fl hfl
  obtain ⟨hwD, hdD, hmD⟩ := winv_emit_location wC fl (sr + 1) (sc + 1) (er + 1)
    (ec + 1) hwC hdC
  obtain ⟨hDl, hDe, hDd, hDc, hDs⟩ := emit_location_spec wC fl (sr + 1) (sc + 1)
    (er + 1) (ec + 1) hwC
  have hdD0 : Declared pD.2 l0 := hmD _ hd1
  have hwE : WInv wE := winv_emit pD.2 _ _ hwD (by
    intro l hl
    simp only [entryRefs, List.filterMap_cons, List.filterMap_nil] at hl
    simp at hl
    rcases hl with rfl | rfl
    · exact hdD0
    · exact hdD)
  have hmE : ∀ l, Declared w l → Declared wE l := fun l hl => hmD l (hm1 l hl)
  have hcE : w.labels.counter < wE.labels.counter := by
    show w.labels.counter < pD.2.labels.counter
    rw [hDc]
    have hwc : wC.labels.counter = w.labels.counter + 1 :=
      (fresh_label_spec w h).2.2.2.2.2
    omega
  cases pinfo with
  | none =>
    dsimp only
    by_cases hcc : cc = 0
    · rw [if_pos hcc]
      refine ⟨winv_emit wE _ _ hwE ?_, hdD0, hmE, rfl, hcE⟩
      intro l hl
      simp only [entryRefs, List.filterMap_cons, List.filterMap_nil] at hl
      simp at hl
      subst hl
      exact hdD0
    · rw [if_neg hcc]
      exact ⟨hwE, hdD0, hmE, rfl, hcE⟩
  | some pi =>
    dsimp only
    have hdPi : Declared wE pi.1 :=
      hmD _ (hm1 _ (hpi pi.1 pi.2 (by cases pi; rfl)))
    have hwF : WInv (wE.emit "solidity_ast_node_parent"
        [TrapValue.label l0, TrapValue.label pi.1, TrapValue.uint pi.2]) :=
      winv_emit wE _ _ hwE (by
        intro l hl
        simp only [entryRefs, List.filterMap_cons, List.filterMap_nil] at hl
        simp at hl
        rcases hl with rfl | rfl
        · exact hdD0
        · exact hdPi)
    by_cases hcc : cc = 0
    · rw [if_pos hcc]
      refine ⟨winv_emit _ _ _ hwF ?_, hdD0, hmE, rfl, hcE⟩
      intro l hl
      simp only [entryRefs, List.filterMap_cons, List.filterMap_nil] at hl
      simp at hl
      subst hl
      exact hdD0
    · rw [if_neg hcc]
      exact ⟨hwF, hdD0, hmE, rfl, hcE⟩

mutual
theorem extract_node_winv : ∀ (n : TSNode) (fl : Label) (w : TrapWriter)
    (pinfo : Option (Label × Nat)),
    WInv w → Declared w fl →
    (∀ pl idx, pinfo = some (pl, idx) → Declared w pl) →
    WInv (extract_node fl w n pinfo).2
    ∧ Declared (extract_node fl w n pinfo).2 (extract_node fl w n pinfo).1
    ∧ (∀ l, Declared w l → Declared (extract_node fl w n pinfo).2 l)
  | .mk kindId kind named sr sc er ec text children, fl, w, pinfo, hw, hfl, hpi => by
    obtain ⟨hP, hPd, hPm, hPfst, hPc⟩ := winv_nodePrelude fl w kindId kind named
      sr sc er ec text children.count pinfo hw hfl hpi
    have hrec := extract_children_winv children fl
      (nodePrelude fl w kindId kind named sr sc er ec text children.count pinfo).1
      kind
      (nodePrelude fl w kindId kind named sr sc er ec text children.count pinfo).2
      0 [] hP (hPm fl hfl) hPd
    simp only [extract_node]
    exact ⟨hrec.1, hrec.2 _ hPd, fun l hl => hrec.2 l (hPm l hl)⟩

theorem extract_children_winv : ∀ (cs : TSKids) (fl parent_label : Label)
    (parentKind : String) (w : TrapWriter) (ci : Nat)
    (fi : List (String × Nat)),
    WInv w → Declared w fl → Declared w parent_label →
    WInv (extract_children fl parent_label parentKind w cs ci fi)
    ∧ (∀ l, Declared w l →
        Declared (extract_children fl parent_label parentKind w cs ci fi) l)
  | .nil, fl, pl, kindP, w, ci, fi, hw, hfl, hpl => by
    simp only [extract_children]
    exact ⟨hw, fun l hl => hl⟩
  | .cons fieldName child rest, fl, pl, kindP, w, ci, fi, hw, hfl, hpl => by
    obtain ⟨hn1, hn2, hn3⟩ := extract_node_winv child fl w (some (pl, ci)) hw hfl
      (by
        intro pl' idx heq
        injection heq with heq'
        cases heq'
        exact hpl)
    simp only [extract_children]
    cases fieldName with
    | none =>
      have hrest := extract_children_winv rest fl pl kindP
        (extract_node fl w child (some (pl, ci))).2 (ci + 1) fi hn1
        (hn3 fl hfl) (hn3 pl hpl)
      exact ⟨hrest.1, fun l hl => hrest.2 l (hn3 l hl)⟩
    | some f =>
      have hw' := winv_emit (extract_node fl w child (some (pl, ci))).2
        (fieldTbl kindP f)
        [TrapValue.label pl, TrapValue.uint ((alookup fi f).getD 0),
         TrapValue.label (extract_node fl w child (some (pl, ci))).1] hn1 (by
        intro l hl
        simp only [entryRefs, List.filterMap_cons, List.filterMap_nil] at hl
        simp at hl
        rcases hl with rfl | rfl
        · exact hn3 _ hpl
        · exact hn2)
      have hrest := extract_children_winv rest fl pl kindP _ (ci + 1)
        (ainsert fi f ((alookup fi f).getD 0 + 1)) hw'
        (hn3 fl hfl) (hn3 pl hpl)
      exact ⟨hrest.1, fun l hl => hrest.2 l (hn3 l hl)⟩
end

theorem winv_chain : ∀ (folders : List String) (w : TrapWriter)
    (pl : Option Label),
    WInv w → (∀ l, pl = some l → Declared w l) →
    WInv (emitFolderChain w pl folders).1
    ∧ (∀ l, (emitFolderChain w pl folders).2 = some l →
        Declared (emitFolderChain w pl folders).1 l)
    ∧ (∀ l, Declared w l → Declared (emitFolderChain w pl folders).1 l) := by
  intro folders
  induction folders with
  | nil =>
    intro w pl hw hpl
    simp only [emitFolderChain]
    exact ⟨hw, hpl, fun l hl => hl⟩
  | cons f rest ih =>
    intro w pl hw hpl
    obtain ⟨hfw, hfd, hfm, _⟩ := winv_emit_folder w f hw
    simp only [emitFolderChain]
    cases pl with
    | none =>
      dsimp only
      have := ih (w.emit_folder f).2 (some (w.emit_folder f).1) hfw (by
        intro l hl
        cases hl
        exact hfd)
      exact ⟨this.1, this.2.1, fun l hl => this.2.2 l (hfm l hl)⟩
    | some pp =>
      dsimp only
      have hw2 := winv_emit (w.emit_folder f).2 "containerparent"
        [TrapValue.label pp, TrapValue.label (w.emit_folder f).1] hfw (by
        intro l hl
        simp only [entryRefs, List.filterMap_cons, List.filterMap_nil] at hl
        simp at hl
        rcases hl with rfl | rfl
        · exact hfm _ (hpl _ rfl)
        · exact hfd)
      have := ih _ (some (w.emit_folder f).1) hw2 (by
        intro l hl
        cases hl
        exact hfd)
      exact ⟨this.1, this.2.1, fun l hl => this.2.2 l (hfm l hl)⟩

theorem winv_hierarchy (e : Extractor) (h : WInv e.trap)
    (hfl : ∀ l, e.file_label = some l → Declared e.trap l) :
    WInv e.emit_folder_hierarchy.trap
    ∧ (∀ l, Declared e.trap l → Declared e.emit_folder_hierarchy.trap l)
    ∧ e.emit_folder_hierarchy.file_label = e.file_label := by
  unfold Extractor.emit_folder_hierarchy
  dsimp only
  obtain ⟨hcw, hcp, hcm⟩ := winv_chain
    ((collectAncestors e.file_comps).map renderPath).reverse e.trap none h
    (by intro l hl; cases hl)
  cases hp2 : (emitFolderChain e.trap none
      ((collectAncestors e.file_comps).map renderPath).reverse).2 with
  | none =>
    cases hfile : e.file_label <;> exact ⟨hcw, hcm, rfl⟩
  | some parent =>
    cases hfile : e.file_label with
    | none => exact ⟨hcw, hcm, rfl⟩
    | some file =>
      refine ⟨winv_emit _ _ _ hcw ?_, fun l hl => hcm l hl, rfl⟩
      intro l hl
      simp only [entryRefs, List.filterMap_cons, List.filterMap_nil] at hl
      simp at hl
      rcases hl with rfl | rfl
      · exact hcp _ hp2
      · exact hcm _ (hfl _ hfile)

theorem winv_extractFile (file_comps : List String) (root : TSNode) :
    WInv (extractFile file_comps root).trap := by
  unfold extractFile Extractor.extract Extractor.new
  dsimp only
  obtain ⟨hf1, hf2, hf3, _⟩ := winv_emit_file
    (TrapWriter.new (renderPath file_comps)) (renderPath file_comps)
    (winv_new (renderPath file_comps))
  obtain ⟨hh1, hh2, hh3⟩ := winv_hierarchy
    ⟨file_comps,
     ((TrapWriter.new (renderPath file_comps)).emit_file (renderPath file_comps)).2,
     some ((TrapWriter.new (renderPath file_comps)).emit_file (renderPath file_comps)).1⟩
    hf1
    (by intro l hl; cases hl; exact hf2)
  obtain ⟨ht1, ht2, ht3⟩ := extract_node_winv root
    ((TrapWriter.new (renderPath file_comps)).emit_file (renderPath file_comps)).1
    (Extractor.emit_folder_hierarchy
      ⟨file_comps,
       ((TrapWriter.new (renderPath file_comps)).emit_file (renderPath file_comps)).2,
       some ((TrapWriter.new (renderPath file_comps)).emit_file (renderPath file_comps)).1⟩).trap
    none hh1 (hh2 _ hf2) (by intro _ _ hcontra; cases hcontra)
  exact ht1

theorem formatLines_shape (w : TrapWriter) :
    ∃ pre mid, w.formatLines
      = pre ++ w.label_defs.map LabelDef.format
        ++ mid ++ w.entries.map TrapEntry.format := by
  by_cases hd : w.label_defs.isEmpty
  · refine ⟨["// CodeQL TRAP file generated by codeql-extractor-solidity", ""]
      ++ w.comments.map (fun c => "// " ++ c)
      ++ (if w.comments.isEmpty then [] else [""]), [], ?_⟩
    have hnil : w.label_defs = [] := List.isEmpty_iff.mp hd
    simp [TrapWriter.formatLines, hd, hnil]
  · refine ⟨["// CodeQL TRAP file generated by codeql-extractor-solidity", ""]
      ++ w.comments.map (fun c => "// " ++ c)
      ++ (if w.comments.isEmpty then [] else [""])
      ++ ["// Label definitions"], [""], ?_⟩
    simp only [TrapWriter.formatLines, hd, if_false, Bool.false_eq_true]
    simp [List.append_assoc]

/-- C1: the serialized output of a full single-file extraction is ordered
as header/comments, then all label declarations in first-declared order,
then all tuples in emission order; and every label referenced by any
emitted tuple has a declaration among the buffered label definitions (so
its declaration line precedes every tuple line in the output). -/
theorem c1_serialization_order_and_declaration_before_use :
    ∀ (file_comps : List String) (root : TSNode),
    (∃ pre mid, (extractFile file_comps root).trap.formatLines
      = pre ++ (extractFile file_comps root).trap.label_defs.map LabelDef.format
        ++ mid ++ (extractFile file_comps root).trap.entries.map TrapEntry.format)
    ∧ (∀ e ∈ (extractFile file_comps root).trap.entries,
        ∀ l ∈ entryRefs e, Declared (extractFile file_comps root).trap l) := by
  intro file_comps root
  exact ⟨formatLines_shape _,
    fun e he l hl => (winv_extractFile file_comps root).2.2.2 e he l hl⟩

/-- C1 witness: in a concrete extraction, the `files` tuple references
label `#10000`, which is declared. -/
theorem c1_serialization_order_witness :
    (⟨"files", [TrapValue.label (freshL 0), TrapValue.string "/t"]⟩ : TrapEntry)
      ∈ (extractFile ["t"] (c6Child 7)).trap.entries
    ∧ freshL 0 ∈ entryRefs
        ⟨"files", [TrapValue.label (freshL 0), TrapValue.string "/t"]⟩
    ∧ Declared (extractFile ["t"] (c6Child 7)).trap (freshL 0) :=
  ⟨by decide, by decide,
   (c1_serialization_order_and_declaration_before_use ["t"] (c6Child 7)).2
     ⟨"files", [TrapValue.label (freshL 0), TrapValue.string "/t"]⟩ (by decide)
     (freshL 0) (by decide)⟩

theorem fresh_label_entries (w : TrapWriter) :
    w.fresh_label.2.entries = w.entries := by
  unfold TrapWriter.fresh_label TrapWriter.define_fresh_label
  dsimp only
  split <;> rfl

theorem fresh_label_counter (w : TrapWriter) :
    w.fresh_label.2.labels.counter = w.labels.counter + 1 := by
  unfold TrapWriter.fresh_label TrapWriter.define_fresh_label
  dsimp only
  split <;> rfl

theorem fresh_label_cache (w : TrapWriter) :
    w.fresh_label.2.string_cache = w.string_cache := by
  unfold TrapWriter.fresh_label TrapWriter.define_fresh_label
  dsimp only
  split <;> rfl

theorem fresh_label_fst (w : TrapWriter) :
    w.fresh_label.1 = freshL w.labels.counter := rfl

theorem emit_location_entries (w : TrapWriter) (fl : Label) (a b c d : Nat) :
    (w.emit_location fl a b c d).2.entries
      = w.entries ++ [⟨"locations_default",
          [TrapValue.label (freshL w.labels.counter), TrapValue.label fl,
           TrapValue.uint a, TrapValue.uint b, TrapValue.uint c,
           TrapValue.uint d]⟩] := by
  unfold TrapWriter.emit_location TrapWriter.emit
  dsimp only
  rw [fresh_label_entries, fresh_label_fst]

theorem emit_location_counter (w : TrapWriter) (fl : Label) (a b c d : Nat) :
    (w.emit_location fl a b c d).2.labels.counter = w.labels.counter + 1 := by
  unfold TrapWriter.emit_location TrapWriter.emit
  dsimp only
  rw [fresh_label_counter]

theorem emit_location_fst (w : TrapWriter) (fl : Label) (a b c d : Nat) :
    (w.emit_location fl a b c d).1 = freshL w.labels.counter := by
  unfold TrapWriter.emit_location TrapWriter.emit
  dsimp only
  rw [fresh_label_fst]

theorem fieldSeq_append (l1 l2 : List TrapEntry) (s tbl : String) :
    fieldSeq (l1 ++ l2) s tbl = fieldSeq l1 s tbl ++ fieldSeq l2 s tbl := by
  induction l1 with
  | nil => rfl
  | cons e rest ih =>
    show fieldSeq (e :: (rest ++ l2)) s tbl
      = fieldSeq (e :: rest) s tbl ++ fieldSeq l2 s tbl
    simp only [fieldSeq]
    cases e with
    | mk t vs =>
      cases vs with
      | nil => exact ih
      | cons v1 vrest =>
        cases v1 <;> try exact ih
        cases vrest with
        | nil => exact ih
        | cons v2 vrest2 =>
          cases v2 <;> try exact ih
          cases vrest2 with
          | nil => exact ih
          | cons v3 vrest3 =>
            cases v3 <;> try exact ih
            cases vrest3 with
            | nil =>
              dsimp only
              split_ifs <;> simp [ih]
            | cons v4 vrest4 => exact ih

theorem fieldSeq_nil_of_unshaped (Δ : List TrapEntry) (s tbl : String)
    (h : ∀ e ∈ Δ, isFieldShaped e = false) : fieldSeq Δ s tbl = [] := by
  induction Δ with
  | nil => rfl
  | cons e rest ih =>
    have he := h e (by simp)
    have hrest := ih (fun x hx => h x (by simp [hx]))
    show fieldSeq (e :: rest) s tbl = []
    simp only [fieldSeq]
    cases e with
    | mk t vs =>
      cases vs with
      | nil => exact hrest
      | cons v1 vrest =>
        cases v1 <;> try exact hrest
        cases vrest with
        | nil => exact hrest
        | cons v2 vrest2 =>
          cases v2 <;> try exact hrest
          cases vrest2 with
          | nil => exact hrest
          | cons v3 vrest3 =>
            cases v3 <;> try exact hrest
            cases vrest3 with
            | nil => simp [isFieldShaped] at he
            | cons v4 vrest4 => exact hrest

theorem alookup_ainsert_same {α : Type} :
    ∀ (m : List (String × α)) (k : String) (v : α),
    alookup (ainsert m k v) k = some v := by
  intro m
  induction m with
  | nil => intro k v; simp [ainsert, alookup]
  | cons p rest ih =>
    intro k v
    obtain ⟨k', v'⟩ := p
    simp only [ainsert]
    by_cases hk : k' = k
    · rw [if_pos hk]
      simp [alookup]
    · rw [if_neg hk]
      simp only [alookup, hk, if_false]
      exact ih k v

theorem alookup_ainsert_ne {α : Type} :
    ∀ (m : List (String × α)) (k k' : String) (v : α), k ≠ k' →
    alookup (ainsert m k v) k' = alookup m k' := by
  intro m
  induction m with
  | nil =>
    intro k k' v hne
    simp [ainsert, alookup, hne]
  | cons p rest ih =>
    intro k k' v hne
    obtain ⟨k0, v0⟩ := p
    simp only [ainsert]
    by_cases hk : k0 = k
    · rw [if_pos hk]
      subst hk
      simp [alookup, hne]
    · rw [if_neg hk]
      simp only [alookup]
      by_cases hk0 : k0 = k'
      · simp [hk0]
      · simp only [hk0, if_false]
        exact ih k k' v hne

theorem fieldTbl_inj (kind f g : String) (h : fieldTbl kind f = fieldTbl kind g) :
    f = g := by
  unfold fieldTbl at h
  have h1 : ("solidity_" ++ normalize_kind kind ++ "_") ++ f
      = ("solidity_" ++ normalize_kind kind ++ "_") ++ g := by
    rw [show ("solidity_" ++ normalize_kind kind ++ "_") ++ f
          = "solidity_" ++ normalize_kind kind ++ "_" ++ f from by
        simp [String.append_assoc]]
    rw [show ("solidity_" ++ normalize_kind kind ++ "_") ++ g
          = "solidity_" ++ normalize_kind kind ++ "_" ++ g from by
        simp [String.append_assoc]]
    exact h
  exact string_append_left_cancel h1

theorem levelSeq_spec :
    ∀ (cs : TSKids) (m : List (String × Nat)) (kind f : String),
    levelSeq m kind (fieldTbl kind f) cs
      = List.range' ((alookup m f).getD 0) (countFT kind (fieldTbl kind f) cs)
  | .nil, m, kind, f => rfl
  | .cons fieldName child rest, m, kind, f => by
    cases fieldName with
    | none =>
      simp only [levelSeq, countFT]
      exact levelSeq_spec rest m kind f
    | some g =>
      by_cases hg : g = f
      · subst hg
        simp only [levelSeq, countFT, if_pos rfl]
        rw [levelSeq_spec rest (ainsert m g ((alookup m g).getD 0 + 1)) kind g,
          alookup_ainsert_same]
        simp only [Option.getD_some, if_true]
        rw [Nat.add_comm 1 (countFT kind (fieldTbl kind g) rest), List.range'_succ]
      · have htbl : fieldTbl kind g ≠ fieldTbl kind f :=
          fun hc => hg (fieldTbl_inj kind g f hc)
        simp only [levelSeq, countFT, if_neg htbl]
        rw [levelSeq_spec rest (ainsert m g ((alookup m g).getD 0 + 1)) kind f,
          alookup_ainsert_ne m g f _ hg, Nat.zero_add]

theorem countFT_eq_zero_of_no_field :
    ∀ (cs : TSKids) (kind tbl : String),
    (∀ f, fieldTbl kind f ≠ tbl) →
    countFT kind tbl cs = 0 ∧ ∀ m, levelSeq m kind tbl cs = []
  | .nil, kind, tbl, h => ⟨rfl, fun m => rfl⟩
  | .cons fieldName child rest, kind, tbl, h => by
    have ih := countFT_eq_zero_of_no_field rest kind tbl h
    cases fieldName with
    | none => simpa [countFT, levelSeq] using ih
    | some g =>
      refine ⟨?_, fun m => ?_⟩
      · simp only [countFT, if_neg (h g)]
        simpa using ih.1
      · simp only [levelSeq, if_neg (h g)]
        exact ih.2 _

theorem levelSeq_empty_map (cs : TSKids) (kind tbl : String) :
    levelSeq [] kind tbl cs = List.range (countFT kind tbl cs) := by
  by_cases h : ∃ f, fieldTbl kind f = tbl
  · obtain ⟨f, rfl⟩ := h
    rw [levelSeq_spec cs [] kind f]
    simp [alookup, List.range_eq_range']
  · push_neg at h
    obtain ⟨h1, h2⟩ := countFT_eq_zero_of_no_field cs kind tbl h
    rw [h1, h2]
    simp

theorem fieldSeq_single_field (tblE tbl s : String) (p c : Label) (i : Nat) :
    fieldSeq [⟨tblE, [TrapValue.label p, TrapValue.uint i, TrapValue.label c]⟩]
      s tbl = if tblE = tbl ∧ p.str = s then [i] else [] := by
  simp [fieldSeq]

theorem emit_counter (w : TrapWriter) (t : String) (v : List TrapValue) :
    (w.emit t v).labels.counter = w.labels.counter := rfl

theorem emit_entries (w : TrapWriter) (t : String) (v : List TrapValue) :
    (w.emit t v).entries = w.entries ++ [⟨t, v⟩] := rfl

theorem nodePrelude_basic (fl : Label) (w : TrapWriter) (kindId : Nat)
    (kind : String) (named : Bool) (sr sc er ec : Nat) (text : String)
    (cc : Nat) (pinfo : Option (Label × Nat)) :
    (nodePrelude fl w kindId kind named sr sc er ec text cc pinfo).1
      = freshL w.labels.counter
    ∧ (nodePrelude fl w kindId kind named sr sc er ec text cc pinfo).2.labels.counter
      = w.labels.counter + 2
    ∧ ∃ Δ, (nodePrelude fl w kindId kind named sr sc er ec text cc pinfo).2.entries
        = w.entries ++ Δ
        ∧ (∀ e ∈ Δ, isFieldShaped e = false)
        ∧ (∀ e ∈ Δ, e.table = "locations_default"
            ∨ ∃ x, e.table = "solidity_" ++ x) := by
  have htname : (if named then "solidity_" ++ normalize_kind kind ++ "_def"
      else "solidity_token_def") = "locations_default"
      ∨ ∃ x, (if named then "solidity_" ++ normalize_kind kind ++ "_def"
      else "solidity_token_def") = "solidity_" ++ x := by
    right
    cases named with
    | true =>
      refine ⟨normalize_kind kind ++ "_def", ?_⟩
      simp [String.append_assoc]
    | false =>
      refine ⟨"token_def", ?_⟩
      show "solidity_token_def" = "solidity_" ++ "token_def"
      decide
  unfold nodePrelude
  dsimp only
  cases pinfo with
  | none =>
    dsimp only
    by_cases hcc : cc = 0
    · rw [if_pos hcc]
      refine ⟨rfl, by simp [emit_counter, emit_location_counter,
        fresh_label_counter], ?_⟩
      refine ⟨[⟨(if named = true then "solidity_" ++ normalize_kind kind ++ "_def"
            else "solidity_token_def"),
           [TrapValue.label (freshL w.labels.counter)]⟩,
          ⟨"solidity_ast_node_info",
           [TrapValue.label (freshL w.labels.counter), TrapValue.uint kindId]⟩,
          ⟨"locations_default",
           [TrapValue.label (freshL (w.labels.counter + 1)), TrapValue.label fl,
            TrapValue.uint (sr + 1), TrapValue.uint (sc + 1),
            TrapValue.uint (er + 1), TrapValue.uint (ec + 1)]⟩,
          ⟨"solidity_ast_node_location",
           [TrapValue.label (freshL w.labels.counter),
            TrapValue.label (freshL (w.labels.counter + 1))]⟩,
          ⟨"solidity_tokeninfo",
           [TrapValue.label (freshL w.labels.counter), TrapValue.uint kindId,
            TrapValue.string text]⟩], ?_, ?_, ?_⟩
      · simp only [emit_entries, emit_location_entries, emit_location_fst,
          fresh_label_entries, fresh_label_fst, emit_counter,
          fresh_label_counter, List.append_assoc, List.cons_append,
          List.nil_append, List.singleton_append]
      · intro e he
        simp only [List.mem_cons, List.mem_append, List.mem_singleton,
          List.not_mem_nil, or_false] at he
        rcases he with rfl | rfl | rfl | rfl | rfl <;> rfl
      · intro e he
        simp only [List.mem_cons, List.mem_append, List.mem_singleton,
          List.not_mem_nil, or_false] at he
        rcases he with rfl | rfl | rfl | rfl | rfl
        · exact htname
        · exact Or.inr ⟨"ast_node_info", rfl⟩
        · exact Or.inl rfl
        · exact Or.inr ⟨"ast_node_location", rfl⟩
        · exact Or.inr ⟨"tokeninfo", rfl⟩
    · rw [if_neg hcc]
      refine ⟨rfl, by simp [emit_counter, emit_location_counter,
        fresh_label_counter], ?_⟩
      refine ⟨[⟨(if named = true then "solidity_" ++ normalize_kind kind ++ "_def"
            else "solidity_token_def"),
           [TrapValue.label (freshL w.labels.counter)]⟩,
          ⟨"solidity_ast_node_info",
           [TrapValue.label (freshL w.labels.counter), TrapValue.uint kindId]⟩,
          ⟨"locations_default",
           [TrapValue.label (freshL (w.labels.counter + 1)), TrapValue.label fl,
            TrapValue.uint (sr + 1), TrapValue.uint (sc + 1),
            TrapValue.uint (er + 1), TrapValue.uint (ec + 1)]⟩,
          ⟨"solidity_ast_node_location",
           [TrapValue.label (freshL w.labels.counter),
            TrapValue.label (freshL (w.labels.counter + 1))]⟩], ?_, ?_, ?_⟩
      · simp only [emit_entries, emit_location_entries, emit_location_fst,
          fresh_label_entries, fresh_label_fst, emit_counter,
          fresh_label_counter, List.append_assoc, List.cons_append,
          List.nil_append, List.singleton_append]
      · intro e he
        simp only [List.mem_cons, List.mem_append, List.mem_singleton,
          List.not_mem_nil, or_false] at he
        rcases he with rfl | rfl | rfl | rfl <;> rfl
      · intro e he
        simp only [List.mem_cons, List.mem_append, List.mem_singleton,
          List.not_mem_nil, or_false] at he
        rcases he with rfl | rfl | rfl | rfl
        · exact htname
        · exact Or.inr ⟨"ast_node_info", rfl⟩
        · exact Or.inl rfl
        · exact Or.inr ⟨"ast_node_location", rfl⟩
  | some pi =>
    dsimp only
    by_cases hcc : cc = 0
    · rw [if_pos hcc]
      refine ⟨rfl, by simp [emit_counter, emit_location_counter,
        fresh_label_counter], ?_⟩
      refine ⟨[⟨(if named = true then "solidity_" ++ normalize_kind kind ++ "_def"
            else "solidity_token_def"),
           [TrapValue.label (freshL w.labels.counter)]⟩,
          ⟨"solidity_ast_node_info",
           [TrapValue.label (freshL w.labels.counter), TrapValue.uint kindId]⟩,
          ⟨"locations_default",
           [TrapValue.label (freshL (w.labels.counter + 1)), TrapValue.label fl,
            TrapValue.uint (sr + 1), TrapValue.uint (sc + 1),
            TrapValue.uint (er + 1), TrapValue.uint (ec + 1)]⟩,
          ⟨"solidity_ast_node_location",
           [TrapValue.label (freshL w.labels.counter),
            TrapValue.label (freshL (w.labels.counter + 1))]⟩,
          ⟨"solidity_ast_node_parent",
           [TrapValue.label (freshL w.labels.counter), TrapValue.label pi.1,
            TrapValue.uint pi.2]⟩,
          ⟨"solidity_tokeninfo",
           [TrapValue.label (freshL w.labels.counter), TrapValue.uint kindId,
            TrapValue.string text]⟩], ?_, ?_, ?_⟩
      · simp only [emit_entries, emit_location_entries, emit_location_fst,
          fresh_label_entries, fresh_label_fst, emit_counter,
          fresh_label_counter, List.append_assoc, List.cons_append,
          List.nil_append, List.singleton_append]
      · intro e he
        simp only [List.mem_cons, List.mem_append, List.mem_singleton,
          List.not_mem_nil, or_false] at he
        rcases he with rfl | rfl | rfl | rfl | rfl | rfl <;> rfl
      · intro e he
        simp only [List.mem_cons, List.mem_append, List.mem_singleton,
          List.not_mem_nil, or_false] at he
        rcases he with rfl | rfl | rfl | rfl | rfl | rfl
        · exact htname
        · exact Or.inr ⟨"ast_node_info", rfl⟩
        · exact Or.inl rfl
        · exact Or.inr ⟨"ast_node_location", rfl⟩
        · exact Or.inr ⟨"ast_node_parent", rfl⟩
        · exact Or.inr ⟨"tokeninfo", rfl⟩
    · rw [if_neg hcc]
      refine ⟨rfl, by simp [emit_counter, emit_location_counter,
        fresh_label_counter], ?_⟩
      refine ⟨[⟨(if named = true then "solidity_" ++ normalize_kind kind ++ "_def"
            else "solidity_token_def"),
           [TrapValue.label (freshL w.labels.counter)]⟩,
          ⟨"solidity_ast_node_info",
           [TrapValue.label (freshL w.labels.counter), TrapValue.uint kindId]⟩,
          ⟨"locations_default",
           [TrapValue.label (freshL (w.labels.counter + 1)), TrapValue.label fl,
            TrapValue.uint (sr + 1), TrapValue.uint (sc + 1),
            TrapValue.uint (er + 1), TrapValue.uint (ec + 1)]⟩,
          ⟨"solidity_ast_node_location",
           [TrapValue.label (freshL w.labels.counter),
            TrapValue.label (freshL (w.labels.counter + 1))]⟩,
          ⟨"solidity_ast_node_parent",
           [TrapValue.label (freshL w.labels.counter), TrapValue.label pi.1,
            TrapValue.uint pi.2]⟩], ?_, ?_, ?_⟩
      · simp only [emit_entries, emit_location_entries, emit_location_fst,
          fresh_label_entries, fresh_label_fst, emit_counter,
          fresh_label_counter, List.append_assoc, List.cons_append,
          List.nil_append, List.singleton_append]
      · intro e he
        simp only [List.mem_cons, List.mem_append, List.mem_singleton,
          List.not_mem_nil, or_false] at he
        rcases he with rfl | rfl | rfl | rfl | rfl <;> rfl
      · intro e he
        simp only [List.mem_cons, List.mem_append, List.mem_singleton,
          List.not_mem_nil, or_false] at he
        rcases he with rfl | rfl | rfl | rfl | rfl
        · exact htname
        · exact Or.inr ⟨"ast_node_info", rfl⟩
        · exact Or.inl rfl
        · exact Or.inr ⟨"ast_node_location", rfl⟩
        · exact Or.inr ⟨"ast_node_parent", rfl⟩

theorem fieldSeq_nil_of_fresh_parents (s tbl : String) :
    ∀ (Δ : List TrapEntry),
    (∀ e ∈ Δ, isFieldShaped e = true →
        ∃ j i c, e.values = [TrapValue.label (freshL j), TrapValue.uint i,
            TrapValue.label c] ∧ (freshL j).str ≠ s) →
    fieldSeq Δ s tbl = [] := by
  intro Δ
  induction Δ with
  | nil => intro h; rfl
  | cons e rest ih =>
    intro h
    have hrest := ih (fun x hx hs => h x (by simp [hx]) hs)
    show fieldSeq (e :: rest) s tbl = []
    simp only [fieldSeq]
    cases e with
    | mk t vs =>
      cases vs with
      | nil => exact hrest
      | cons v1 vrest =>
        cases v1 <;> try exact hrest
        cases vrest with
        | nil => exact hrest
        | cons v2 vrest2 =>
          cases v2 <;> try exact hrest
          cases vrest2 with
          | nil => exact hrest
          | cons v3 vrest3 =>
            cases v3 <;> try exact hrest
            cases vrest3 with
            | cons v4 vrest4 => exact hrest
            | nil =>
              rename_i p i q
              obtain ⟨j, i2, c2, hv, hne⟩ :=
                h ⟨t, [TrapValue.label p, TrapValue.uint i,
                       TrapValue.label q]⟩ (by simp) rfl
              simp only [List.cons.injEq, TrapValue.label.injEq,
                TrapValue.uint.injEq] at hv
              dsimp only
              rw [if_neg (fun hc => hne (hv.1 ▸ hc.2))]
              exact hrest

mutual
theorem extract_node_fs : ∀ (n : TSNode) (fl : Label) (w : TrapWriter)
    (pinfo : Option (Label × Nat)),
    (extract_node fl w n pinfo).1 = freshL w.labels.counter
    ∧ w.labels.counter + 2 ≤ (extract_node fl w n pinfo).2.labels.counter
    ∧ ∃ Δ, (extract_node fl w n pinfo).2.entries = w.entries ++ Δ
      ∧ (∀ e ∈ Δ, isFieldShaped e = true →
          ∃ j i c, w.labels.counter ≤ j
            ∧ e.values = [TrapValue.label (freshL j), TrapValue.uint i,
                TrapValue.label c])
      ∧ (∀ e ∈ Δ, e.table = "locations_default"
          ∨ ∃ x, e.table = "solidity_" ++ x)
      ∧ (∀ tbl, fieldSeq Δ (freshL w.labels.counter).str tbl
          = levelSeq [] n.kind tbl n.children)
  | .mk kindId kind named sr sc er ec text cs, fl, w, pinfo => by
    obtain ⟨hp1, hp2, Δp, hpe, hpsh, hptb⟩ := nodePrelude_basic fl w kindId kind
      named sr sc er ec text cs.count pinfo
    have hrec := extract_children_fs cs fl
      (nodePrelude fl w kindId kind named sr sc er ec text cs.count pinfo).1
      kind
      (nodePrelude fl w kindId kind named sr sc er ec text cs.count pinfo).2
      0 [] w.labels.counter (by rw [hp2]; omega) hp1
    obtain ⟨hc1, Δc, hce, hcsh, hctb, hcfs⟩ := hrec
    rw [hp2] at hc1
    simp only [extract_node]
    refine ⟨hp1, hc1, Δp ++ Δc, ?_, ?_, ?_, ?_⟩
    · rw [hce, hpe, List.append_assoc]
    · intro e he hsh
      rcases List.mem_append.1 he with h | h
      · rw [hpsh e h] at hsh
        exact absurd hsh (by simp)
      · obtain ⟨j, i, c, hj, hv⟩ := hcsh e h hsh
        exact ⟨j, i, c, hj, hv⟩
    · intro e he
      rcases List.mem_append.1 he with h | h
      · exact hptb e h
      · exact hctb e h
    · intro tbl
      rw [fieldSeq_append, fieldSeq_nil_of_unshaped Δp _ _ hpsh]
      rw [hp1] at hcfs
      rw [hcfs tbl]
      simp [TSNode.kind, TSNode.children]

theorem extract_children_fs : ∀ (cs : TSKids) (fl pl : Label) (kind : String)
    (w : TrapWriter) (ci : Nat) (m : List (String × Nat)) (j0 : Nat),
    j0 < w.labels.counter → pl = freshL j0 →
    w.labels.counter ≤ (extract_children fl pl kind w cs ci m).labels.counter
    ∧ ∃ Δ, (extract_children fl pl kind w cs ci m).entries = w.entries ++ Δ
      ∧ (∀ e ∈ Δ, isFieldShaped e = true →
          ∃ j i c, j0 ≤ j
            ∧ e.values = [TrapValue.label (freshL j), TrapValue.uint i,
                TrapValue.label c])
      ∧ (∀ e ∈ Δ, e.table = "locations_default"
          ∨ ∃ x, e.table = "solidity_" ++ x)
      ∧ (∀ tbl, fieldSeq Δ pl.str tbl = levelSeq m kind tbl cs)
  | .nil, fl, pl, kind, w, ci, m, j0, hj0, hpl => by
    simp only [extract_children]
    exact ⟨Nat.le_refl _, [], by simp, by intro e he; simp at he,
      by intro e he; simp at he, fun tbl => rfl⟩
  | .cons fieldName child rest, fl, pl, kind, w, ci, m, j0, hj0, hpl => by
    obtain ⟨hn1, hn2, Δn, hne, hnsh, hntb, hnfs⟩ := extract_node_fs child fl w
      (some (pl, ci))
    have hnil : ∀ tbl, fieldSeq Δn pl.str tbl = [] := by
      intro tbl
      apply fieldSeq_nil_of_fresh_parents
      intro e he hsh
      obtain ⟨j, i, c, hj, hv⟩ := hnsh e he hsh
      refine ⟨j, i, c, hv, ?_⟩
      rw [hpl]
      intro hstr
      have := freshL_str_inj j j0 hstr
      omega
    simp only [extract_children]
    cases fieldName with
    | none =>
      have hrec := extract_children_fs rest fl pl kind
        (extract_node fl w child (some (pl, ci))).2 (ci + 1) m j0
        (by omega) hpl
      obtain ⟨hr1, Δr, hre, hrsh, hrtb, hrfs⟩ := hrec
      refine ⟨le_trans (by omega) hr1, Δn ++ Δr, ?_, ?_, ?_, ?_⟩
      · rw [hre, hne, List.append_assoc]
      · intro e he hsh
        rcases List.mem_append.1 he with h | h
        · obtain ⟨j, i, c, hj, hv⟩ := hnsh e h hsh
          exact ⟨j, i, c, by omega, hv⟩
        · exact hrsh e h hsh
      · intro e he
        rcases List.mem_append.1 he with h | h
        · exact hntb e h
        · exact hrtb e h
      · intro tbl
        rw [fieldSeq_append, hnil tbl, hrfs tbl]
        simp only [levelSeq, List.nil_append]
    | some f =>
      have hrec := extract_children_fs rest fl pl kind
        ((extract_node fl w child (some (pl, ci))).2.emit (fieldTbl kind f)
          [TrapValue.label pl, TrapValue.uint ((alookup m f).getD 0),
           TrapValue.label (extract_node fl w child (some (pl, ci))).1])
        (ci + 1) (ainsert m f ((alookup m f).getD 0 + 1)) j0
        (by rw [emit_counter]; omega) hpl
      obtain ⟨hr1, Δr, hre, hrsh, hrtb, hrfs⟩ := hrec
      rw [emit_counter] at hr1
      dsimp only
      refine ⟨le_trans (by omega) hr1, Δn ++ ([⟨fieldTbl kind f,
          [TrapValue.label pl, TrapValue.uint ((alookup m f).getD 0),
           TrapValue.label (extract_node fl w child (some (pl, ci))).1]⟩]
          ++ Δr), ?_, ?_, ?_, ?_⟩
      · rw [hre, emit_entries, hne]
        simp [List.append_assoc]
      · intro e he hsh
        rcases List.mem_append.1 he with h | h
        · obtain ⟨j, i, c, hj, hv⟩ := hnsh e h hsh
          exact ⟨j, i, c, by omega, hv⟩
        · rcases List.mem_append.1 h with h2 | h2
          · simp only [List.mem_singleton] at h2
            subst h2
            exact ⟨j0, (alookup m f).getD 0,
              (extract_node fl w child (some (pl, ci))).1, Nat.le_refl _,
              by rw [hpl]⟩
          · exact hrsh e h2 hsh
      · intro e he
        rcases List.mem_append.1 he with h | h
        · exact hntb e h
        · rcases List.mem_append.1 h with h2 | h2
          · simp only [List.mem_singleton] at h2
            subst h2
            exact Or.inr ⟨normalize_kind kind ++ "_" ++ f, by
              simp [fieldTbl, String.append_assoc]⟩
          · exact hrtb e h2
      · intro tbl
        rw [fieldSeq_append, fieldSeq_append, hnil tbl, hrfs tbl,
          fieldSeq_single_field]
        simp only [levelSeq, List.nil_append]
        by_cases htb : fieldTbl kind f = tbl
        · rw [if_pos ⟨htb, by trivial⟩, if_pos htb]
          rfl
        · rw [if_neg (fun hc => htb hc.1), if_neg htb]
          rfl
end

/-- C6: the index stored in each field-relationship tuple counts
occurrences of that field name only, starting at 0 per field name: for
every node, the indices of the tuples its extraction appends for a field
table `tbl`, keyed by the node's own label, are exactly `0, 1, …, k - 1`
in emission order, where `k` is the number of children bound to a field
name rendering to `tbl`; in particular the interleaved two-field example
(fields `a`, `b`, `a`, `b` in source order) yields indices `0, 1` in `a`'s
table and `0, 1` in `b`'s table, independent of the children's global
sibling positions. -/
theorem c6_field_index_per_field_name :
    (∀ (kindId : Nat) (kind : String) (named : Bool) (sr sc er ec : Nat)
       (text : String) (cs : TSKids) (fl : Label) (w : TrapWriter)
       (pinfo : Option (Label × Nat)) (tbl : String),
      ∃ Δ, (extract_node fl w (.mk kindId kind named sr sc er ec text cs)
            pinfo).2.entries = w.entries ++ Δ
        ∧ fieldSeq Δ
            ((extract_node fl w (.mk kindId kind named sr sc er ec text cs)
              pinfo).1).str tbl
          = List.range (countFT kind tbl cs))
    ∧ fieldSeq (extractFile ["t", "e.sol"] c6Tree).trap.entries "#10003"
        "solidity_n_a" = [0, 1]
    ∧ fieldSeq (extractFile ["t", "e.sol"] c6Tree).trap.entries "#10003"
        "solidity_n_b" = [0, 1] := by
  refine ⟨?_, by decide, by decide⟩
  intro kindId kind named sr sc er ec text cs fl w pinfo tbl
  obtain ⟨h1, h2, Δ, he, hsh, htb, hfs⟩ := extract_node_fs
    (.mk kindId kind named sr sc er ec text cs) fl w pinfo
  refine ⟨Δ, he, ?_⟩
  rw [h1, hfs tbl]
  simp [TSNode.kind, TSNode.children, levelSeq_empty_map]

theorem foldl_append_data : ∀ (l : List String) (s : String),
    (l.foldl (fun a b => a ++ b) s).data = s.data ++ l.flatMap String.data := by
  intro l
  induction l with
  | nil => intro s; simp
  | cons x xs ih =>
    intro s
    simp only [List.foldl_cons, List.flatMap_cons]
    rw [ih (s ++ x)]
    show s.data ++ x.data ++ xs.flatMap String.data
      = s.data ++ (x.data ++ xs.flatMap String.data)
    rw [List.append_assoc]

theorem join_data (l : List String) :
    (String.join l).data = l.flatMap String.data := by
  have h := foldl_append_data l ""
  simpa [String.join] using h

theorem renderPath_data : ∀ l : List String, l ≠ [] →
    (renderPath l).data = l.flatMap (fun c => '/' :: c.data) := by
  intro l hl
  cases l with
  | nil => exact absurd rfl hl
  | cons x xs =>
    show (String.join ((x :: xs).map (fun c => "/" ++ c))).data = _
    rw [join_data]
    induction xs generalizing x with
    | nil => rfl
    | cons y ys ih =>
      simp only [List.map_cons, List.flatMap_cons] at ih ⊢
      rw [show String.data ("/" ++ x) = '/' :: x.data from rfl]
      rw [ih y (by simp)]

theorem data_ne_nil (c : String) (h : c ≠ "") : c.data ≠ [] := by
  intro h0
  apply h
  have he : c = String.mk c.data := rfl
  rw [he, h0]

theorem renderPath_ext (u v : List String) (hv : v ≠ [])
    (hvne : ∀ c ∈ v, c ≠ "") :
    ∃ r, r ≠ [] ∧ (renderPath (u ++ v)).data = (renderPath u).data ++ r := by
  cases u with
  | nil =>
    cases v with
    | nil => exact absurd rfl hv
    | cons c cs =>
      refine ⟨c.data ++ cs.flatMap (fun d => '/' :: d.data), ?_, ?_⟩
      · intro h0
        exact data_ne_nil c (hvne c (by simp))
          (List.append_eq_nil.1 h0).1
      · rw [List.nil_append, renderPath_data (c :: cs) (by simp)]
        rfl
  | cons x xs =>
    refine ⟨v.flatMap (fun d => '/' :: d.data), ?_, ?_⟩
    · cases v with
      | nil => exact absurd rfl hv
      | cons c cs => simp
    · rw [renderPath_data ((x :: xs) ++ v) (by simp),
        renderPath_data (x :: xs) (by simp), List.flatMap_append]

theorem keyEscapeChar_ne_nil (c : Char) : keyEscapeChar c ≠ [] := by
  unfold keyEscapeChar
  split_ifs <;> simp

theorem key_str_data (s : String) :
    (Label.key s).str.data
      = '@' :: qChar :: (s.data.flatMap keyEscapeChar ++ [qChar]) := rfl

theorem key_str_length (s : String) :
    (Label.key s).str.data.length = (s.data.flatMap keyEscapeChar).length + 3 := by
  rw [key_str_data]
  simp [List.length_append]

theorem key_ne_of_ext (s t : String) (r : List Char) (hr : r ≠ [])
    (h : t.data = s.data ++ r) : (Label.key s).str ≠ (Label.key t).str := by
  intro heq
  have hlen : (Label.key s).str.data.length = (Label.key t).str.data.length :=
    congrArg (fun x => x.data.length) heq
  rw [key_str_length, key_str_length, h, List.flatMap_append] at hlen
  have hpos : 0 < (r.flatMap keyEscapeChar).length := by
    cases r with
    | nil => exact absurd rfl hr
    | cons c cr =>
      have h1 : 0 < (keyEscapeChar c).length :=
        List.length_pos.mpr (keyEscapeChar_ne_nil c)
      simp only [List.flatMap_cons, List.length_append]
      omega
  rw [List.length_append] at hlen
  omega

theorem collectAncestors_concat (l : List String) (a : String) :
    collectAncestors (l ++ [a]) = l :: collectAncestors l := by
  unfold collectAncestors
  rw [List.length_append]
  cases l with
  | nil => rfl
  | cons x xs =>
    show ancestorsAux (xs.length + 1 + 1) (x :: (xs ++ [a]))
      = (x :: xs) :: ancestorsAux (x :: xs).length (x :: xs)
    rw [show ancestorsAux (xs.length + 1 + 1) (x :: (xs ++ [a]))
        = (x :: (xs ++ [a])).dropLast
          :: ancestorsAux (xs.length + 1) (x :: (xs ++ [a])).dropLast from rfl]
    rw [show (x :: (xs ++ [a])).dropLast = x :: xs from by
      rw [show x :: (xs ++ [a]) = (x :: xs) ++ [a] from rfl, List.dropLast_concat]]
    rfl

theorem inits_concat (l : List String) (a : String) :
    List.inits (l ++ [a]) = List.inits l ++ [l ++ [a]] := by
  rw [List.inits_append]
  simp

theorem collectAncestors_inits : ∀ l : List String,
    (collectAncestors l).reverse ++ [l] = List.inits l := by
  intro l
  induction l using List.reverseRecOn with
  | nil => rfl
  | append_singleton xs a ih =>
    rw [collectAncestors_concat, List.reverse_cons, inits_concat, ← ih]

theorem emit_folder_miss (w : TrapWriter) (f : String)
    (h : alookup w.string_cache (Label.key f).str = none) :
    w.emit_folder f =
      (freshL w.labels.counter,
       { labels := { pfx := w.labels.pfx, counter := w.labels.counter + 1 },
         label_defs := w.label_defs
           ++ [LabelDef.key (freshL w.labels.counter) (Label.key f)],
         defined_labels := (Label.key f).str :: w.defined_labels,
         entries := w.entries ++ [folderEntry (freshL w.labels.counter) f],
         comments := w.comments,
         string_cache := ((Label.key f).str, freshL w.labels.counter)
           :: w.string_cache }) := by
  unfold TrapWriter.emit_folder LabelGenerator.key
  dsimp only
  rw [define_key_miss w (Label.key f) h]
  rfl

theorem emit_file_miss (w : TrapWriter) (f : String)
    (h : alookup w.string_cache (Label.key f).str = none) :
    w.emit_file f =
      (freshL w.labels.counter,
       { labels := { pfx := w.labels.pfx, counter := w.labels.counter + 1 },
         label_defs := w.label_defs
           ++ [LabelDef.key (freshL w.labels.counter) (Label.key f)],
         defined_labels := (Label.key f).str :: w.defined_labels,
         entries := w.entries ++ [⟨"files",
           [TrapValue.label (freshL w.labels.counter), TrapValue.string f]⟩],
         comments := w.comments,
         string_cache := ((Label.key f).str, freshL w.labels.counter)
           :: w.string_cache }) := by
  unfold TrapWriter.emit_file LabelGenerator.key
  dsimp only
  rw [define_key_miss w (Label.key f) h]
  rfl

theorem chainLast_spec : ∀ (fs : List String) (pl : Option Label) (c0 : Nat),
    fs ≠ [] → chainLast pl c0 fs = some (freshL (c0 + fs.length - 1))
  | [], _, _, h => absurd rfl h
  | [f], pl, c0, _ => by
    show some (freshL c0) = some (freshL (c0 + 1 - 1))
    simp
  | f :: g :: rest, pl, c0, _ => by
    show chainLast (some (freshL c0)) (c0 + 1) (g :: rest)
      = some (freshL (c0 + (g :: rest).length + 1 - 1))
    rw [chainLast_spec (g :: rest) (some (freshL c0)) (c0 + 1) (by simp)]
    congr 2
    simp only [List.length_cons]
    omega

theorem emitFolderChain_spec : ∀ (fs : List String) (w : TrapWriter)
    (pl : Option Label),
    (∀ f ∈ fs, alookup w.string_cache (Label.key f).str = none) →
    (fs.map (fun f => (Label.key f).str)).Nodup →
    (emitFolderChain w pl fs).1.entries
      = w.entries ++ chainRows w.labels.counter pl fs
    ∧ (emitFolderChain w pl fs).1.labels.counter
      = w.labels.counter + fs.length
    ∧ (emitFolderChain w pl fs).2 = chainLast pl w.labels.counter fs
  | [], w, pl, hmiss, hnd => by
    simp [emitFolderChain, chainRows, chainLast]
  | f :: rest, w, pl, hmiss, hnd => by
    have hf := hmiss f (by simp)
    simp only [emitFolderChain]
    rw [emit_folder_miss w f hf]
    simp only [List.map_cons, List.nodup_cons] at hnd
    cases pl with
    | none =>
      dsimp only
      have hrec := emitFolderChain_spec rest
        { labels := { pfx := w.labels.pfx, counter := w.labels.counter + 1 },
          label_defs := w.label_defs
            ++ [LabelDef.key (freshL w.labels.counter) (Label.key f)],
          defined_labels := (Label.key f).str :: w.defined_labels,
          entries := w.entries ++ [folderEntry (freshL w.labels.counter) f],
          comments := w.comments,
          string_cache := ((Label.key f).str, freshL w.labels.counter)
            :: w.string_cache }
        (some (freshL w.labels.counter))
        (by
          intro g hg
          show alookup (((Label.key f).str, freshL w.labels.counter)
            :: w.string_cache) (Label.key g).str = none
          show (if (Label.key f).str = (Label.key g).str
            then some (freshL w.labels.counter)
            else alookup w.string_cache (Label.key g).str) = none
          rw [if_neg (fun (hfg : (Label.key f).str = (Label.key g).str) =>
            hnd.1 (hfg.symm ▸ List.mem_map.2 ⟨g, hg, rfl⟩))]
          exact hmiss g (by simp [hg]))
        hnd.2
      obtain ⟨he, hc, hl⟩ := hrec
      refine ⟨?_, ?_, ?_⟩
      · rw [he]
        simp only [chainRows, List.append_assoc, List.nil_append,
          List.cons_append, List.singleton_append]
      · rw [hc]
        simp only [List.length_cons]
        omega
      · rw [hl]
        rfl
    | some parent =>
      dsimp only
      have hrec := emitFolderChain_spec rest
        (TrapWriter.emit
          { labels := { pfx := w.labels.pfx, counter := w.labels.counter + 1 },
            label_defs := w.label_defs
              ++ [LabelDef.key (freshL w.labels.counter) (Label.key f)],
            defined_labels := (Label.key f).str :: w.defined_labels,
            entries := w.entries ++ [folderEntry (freshL w.labels.counter) f],
            comments := w.comments,
            string_cache := ((Label.key f).str, freshL w.labels.counter)
              :: w.string_cache } "containerparent"
            [TrapValue.label parent, TrapValue.label (freshL w.labels.counter)])
        (some (freshL w.labels.counter))
        (by
          intro g hg
          show alookup (((Label.key f).str, freshL w.labels.counter)
            :: w.string_cache) (Label.key g).str = none
          show (if (Label.key f).str = (Label.key g).str
            then some (freshL w.labels.counter)
            else alookup w.string_cache (Label.key g).str) = none
          rw [if_neg (fun (hfg : (Label.key f).str = (Label.key g).str) =>
            hnd.1 (hfg.symm ▸ List.mem_map.2 ⟨g, hg, rfl⟩))]
          exact hmiss g (by simp [hg]))
        hnd.2
      obtain ⟨he, hc, hl⟩ := hrec
      refine ⟨?_, ?_, ?_⟩
      · rw [he]
        simp only [TrapWriter.emit, chainRows, cpEntry, List.append_assoc,
          List.cons_append, List.singleton_append, List.nil_append]
      · rw [hc]
        simp only [TrapWriter.emit, List.length_cons]
        omega
      · rw [hl]
        rfl

theorem isFolderRow_folderEntry (p f : String) (l : Label) :
    isFolderRow p (folderEntry l f) = (f == p) := by
  simp [isFolderRow, folderEntry]

theorem isFolderRow_cpEntry (p : String) (a b : Label) :
    isFolderRow p (cpEntry a b) = false := rfl

theorem chainRows_countP_folder : ∀ (fs : List String) (c0 : Nat)
    (pl : Option Label) (p : String),
    (chainRows c0 pl fs).countP (isFolderRow p) = fs.countP (fun q => q == p)
  | [], _, _, _ => rfl
  | f :: rest, c0, pl, p => by
    simp only [chainRows, List.countP_cons, List.countP_append]
    rw [chainRows_countP_folder rest (c0 + 1) (some (freshL c0)) p,
      isFolderRow_folderEntry]
    cases pl with
    | none => simp
    | some q =>
      simp [List.countP_cons, isFolderRow_cpEntry]

theorem chainRows_filter_folders : ∀ (fs : List String) (c0 : Nat)
    (pl : Option Label),
    (chainRows c0 pl fs).filter (fun e => e.table == "folders")
      = folderRows c0 fs
  | [], _, _ => rfl
  | f :: rest, c0, pl => by
    simp only [chainRows, List.filter_cons, List.filter_append]
    rw [chainRows_filter_folders rest (c0 + 1) (some (freshL c0))]
    cases pl with
    | none => simp [folderEntry, folderRows]
    | some q => simp [folderEntry, cpEntry, folderRows]

theorem chainRows_filter_cp : ∀ (fs : List String) (c0 : Nat) (q : Label),
    (chainRows c0 (some q) fs).filter
        (fun e => e.table == "containerparent")
      = cpRows q c0 fs.length
  | [], _, _ => rfl
  | f :: rest, c0, q => by
    simp only [chainRows, List.filter_cons, List.filter_append]
    rw [chainRows_filter_cp rest (c0 + 1) (freshL c0)]
    simp [folderEntry, cpEntry, cpRows]

theorem chainRows_filter_cp_none : ∀ (fs : List String) (c0 : Nat),
    (chainRows c0 none fs).filter (fun e => e.table == "containerparent")
      = cpRows (freshL c0) (c0 + 1) (fs.length - 1)
  | [], _ => rfl
  | f :: rest, c0 => by
    simp only [chainRows, List.filter_cons, List.filter_append]
    rw [chainRows_filter_cp rest (c0 + 1) (freshL c0)]
    simp [folderEntry]

theorem tree_table_not_folder_cp (t : String)
    (h : t = "locations_default" ∨ ∃ x, t = "solidity_" ++ x) :
    (t == "folders") = false ∧ (t == "containerparent") = false := by
  rcases h with rfl | ⟨x, rfl⟩
  · exact ⟨rfl, rfl⟩
  · constructor
    · rw [beq_eq_false_iff_ne]
      intro heq
      have hh : ("solidity_" ++ x).data.head? = "folders".data.head? :=
        congrArg (fun s => s.data.head?) heq
      rw [show ("solidity_" ++ x).data.head? = some 's' from rfl,
        show "folders".data.head? = some 'f' from rfl] at hh
      exact absurd hh (by decide)
    · rw [beq_eq_false_iff_ne]
      intro heq
      have hh : ("solidity_" ++ x).data.head? = "containerparent".data.head? :=
        congrArg (fun s => s.data.head?) heq
      rw [show ("solidity_" ++ x).data.head? = some 's' from rfl,
        show "containerparent".data.head? = some 'c' from rfl] at hh
      exact absurd hh (by decide)

theorem countP_beq_nodup (p : String) : ∀ (A : List String), A.Nodup →
    A.countP (fun q => q == p) = if p ∈ A then 1 else 0 := by
  intro A
  induction A with
  | nil => intro h; rfl
  | cons a rest ih =>
    intro h
    rw [List.nodup_cons] at h
    rw [List.countP_cons, ih h.2]
    by_cases hap : a = p
    · subst hap
      simp [h.1]
    · have hb : (a == p) = false := beq_eq_false_iff_ne.2 hap
      by_cases hm : p ∈ rest
      · simp [hm, hb]
      · simp [hm, hb, Ne.symm hap]

theorem key_renderPath_ne_of_ext (u : List String) (v : List String)
    (hv : v ≠ []) (hvne : ∀ c ∈ v, c ≠ "") :
    (Label.key (renderPath u)).str ≠ (Label.key (renderPath (u ++ v))).str := by
  obtain ⟨r, hr, hdata⟩ := renderPath_ext u v hv hvne
  exact key_ne_of_ext (renderPath u) (renderPath (u ++ v)) r hr hdata

theorem ancestorKey_ne_of_sublist (ds : List String) (u : List String)
    (a : String) (ha : a ≠ "") (hds : ∀ c ∈ ds, c ≠ "")
    (hu : u <+: ds) :
    (Label.key (renderPath u)).str ≠ (Label.key (renderPath (ds ++ [a]))).str := by
  obtain ⟨w, hw⟩ := hu
  have hvne : ∀ c ∈ w ++ [a], c ≠ "" := by
    intro c hc
    rcases List.mem_append.1 hc with h | h
    · exact hds c (by rw [← hw]; exact List.mem_append.2 (Or.inr h))
    · simp only [List.mem_singleton] at h
      subst h
      exact ha
  have hrw : ds ++ [a] = u ++ (w ++ [a]) := by
    rw [← hw, List.append_assoc]
  rw [hrw]
  exact key_renderPath_ne_of_ext u (w ++ [a]) (by simp) hvne

theorem chainKeys_nodup (ds : List String) (hds : ∀ c ∈ ds, c ≠ "") :
    (((List.inits ds).map renderPath).map
      (fun f => (Label.key f).str)).Nodup := by
  induction ds using List.reverseRecOn with
  | nil => simp
  | append_singleton xs a ih =>
    have hxs : ∀ c ∈ xs, c ≠ "" := fun c hc =>
      hds c (List.mem_append.2 (Or.inl hc))
    have ha : a ≠ "" := hds a (List.mem_append.2 (Or.inr (by simp)))
    rw [inits_concat, List.map_append, List.map_append]
    simp only [List.map_cons, List.map_nil]
    rw [List.nodup_append]
    refine ⟨ih hxs, by simp, ?_⟩
    intro s hs
    simp only [List.mem_map] at hs
    obtain ⟨f, hf, rfl⟩ := hs
    obtain ⟨u, hu, rfl⟩ := hf
    simp only [List.mem_cons, List.not_mem_nil, or_false]
    intro heq
    exact ancestorKey_ne_of_sublist xs u a ha hxs
      ((List.mem_inits u xs).1 hu) heq


theorem extractFile_shape (ds : List String) (fname : String) (root : TSNode)
    (hds : ∀ d ∈ ds, d ≠ "") (hf : fname ≠ "") :
    ∃ Δt, (∀ e ∈ Δt, e.table = "locations_default"
        ∨ ∃ x, e.table = "solidity_" ++ x)
      ∧ (extractFile (ds ++ [fname]) root).trap.entries
        = ⟨"files", [TrapValue.label (freshL 0),
            TrapValue.string (renderPath (ds ++ [fname]))]⟩
          :: (chainRows 1 none ((List.inits ds).map renderPath)
            ++ (cpEntry (freshL (ds.length + 1)) (freshL 0) :: Δt)) := by
  have hanc : (collectAncestors (ds ++ [fname])).reverse = List.inits ds := by
    have h1 := collectAncestors_inits (ds ++ [fname])
    rw [inits_concat] at h1
    have h2 := congrArg List.dropLast h1
    rwa [List.dropLast_concat, List.dropLast_concat] at h2
  have hfolders : ((collectAncestors (ds ++ [fname])).map renderPath).reverse
      = ((List.inits ds).map renderPath) := by
    rw [← List.map_reverse, hanc]
  have hAlen : (((List.inits ds).map renderPath)).length = ds.length + 1 := by
    rw [List.length_map, List.length_inits]
  have hAne : ((List.inits ds).map renderPath) ≠ ([] : List String) := by
    intro h0
    rw [h0] at hAlen
    simp at hAlen
  have hcache1 : (((TrapWriter.new (renderPath (ds ++ [fname]))).emit_file (renderPath (ds ++ [fname]))).2).string_cache
      = [((Label.key (renderPath (ds ++ [fname]))).str, freshL 0)] := rfl
  have hentries1 : (((TrapWriter.new (renderPath (ds ++ [fname]))).emit_file (renderPath (ds ++ [fname]))).2).entries
      = [⟨"files", [TrapValue.label (freshL 0),
          TrapValue.string (renderPath (ds ++ [fname]))]⟩] := rfl
  have hcounter1 : (((TrapWriter.new (renderPath (ds ++ [fname]))).emit_file (renderPath (ds ++ [fname]))).2).labels.counter = 1 := rfl
  have hlabel1 : ((TrapWriter.new (renderPath (ds ++ [fname]))).emit_file
      (renderPath (ds ++ [fname]))).1 = freshL 0 := rfl
  have hmissA : ∀ f ∈ ((List.inits ds).map renderPath),
      alookup (((TrapWriter.new (renderPath (ds ++ [fname]))).emit_file (renderPath (ds ++ [fname]))).2).string_cache (Label.key f).str = none := by
    intro f hfA
    rw [hcache1]
    obtain ⟨u, hu, rfl⟩ := List.mem_map.1 hfA
    show (if (Label.key (renderPath (ds ++ [fname]))).str
        = (Label.key (renderPath u)).str
      then some (freshL 0)
      else alookup [] (Label.key (renderPath u)).str) = none
    rw [if_neg (fun h =>
      ancestorKey_ne_of_sublist ds u fname hf hds
        ((List.mem_inits u ds).1 hu) h.symm)]
    rfl
  obtain ⟨hce, hcc, hcl⟩ := emitFolderChain_spec ((List.inits ds).map renderPath) ((TrapWriter.new (renderPath (ds ++ [fname]))).emit_file (renderPath (ds ++ [fname]))).2 none hmissA
    (chainKeys_nodup ds hds)
  rw [hcounter1] at hce hcc hcl
  rw [hentries1] at hce
  have hcl2 : (emitFolderChain ((TrapWriter.new (renderPath (ds ++ [fname]))).emit_file (renderPath (ds ++ [fname]))).2 none ((List.inits ds).map renderPath)).2
      = some (freshL (ds.length + 1)) := by
    rw [hcl, chainLast_spec ((List.inits ds).map renderPath) none 1 hAne, hAlen]
    congr 2
    omega
  have he2 : (Extractor.emit_folder_hierarchy
      { file_comps := ds ++ [fname], trap := ((TrapWriter.new (renderPath (ds ++ [fname]))).emit_file (renderPath (ds ++ [fname]))).2,
         file_label := some (freshL 0) }).trap
      = (emitFolderChain ((TrapWriter.new (renderPath (ds ++ [fname]))).emit_file (renderPath (ds ++ [fname]))).2 none ((List.inits ds).map renderPath)).1.emit "containerparent"
          [TrapValue.label (freshL (ds.length + 1)), TrapValue.label (freshL 0)] := by
    unfold Extractor.emit_folder_hierarchy
    dsimp only
    rw [hfolders, hcl2]
  obtain ⟨hn1, hn2, Δt, hte, hts, httb, htf⟩ := extract_node_fs root (freshL 0)
    ((emitFolderChain ((TrapWriter.new (renderPath (ds ++ [fname]))).emit_file (renderPath (ds ++ [fname]))).2 none ((List.inits ds).map renderPath)).1.emit "containerparent"
      [TrapValue.label (freshL (ds.length + 1)), TrapValue.label (freshL 0)])
    none
  refine ⟨Δt, httb, ?_⟩
  show ((Extractor.new (ds ++ [fname])).extract root).trap.entries = _
  unfold Extractor.extract Extractor.new
  dsimp only
  rw [hlabel1, he2, hte, emit_entries, hce]
  simp [List.append_assoc, cpEntry]

/-- C7: extracting a file with ancestor directories `d1` (root-most,
here the filesystem root `/`) through `dn` (immediate parent) emits
exactly one `folders` entity row per distinct ancestor directory (and no
other `folders` rows), the `containerparent` rows are exactly one tuple
chaining each folder `d(i+1)` to `di` (the folders carrying consecutive
fresh labels in root-first order) plus one tuple linking the file entity
to `dn`; instantiating at `/x/y/Z.sol` gives folder rows for `/`, `/x`
and `/x/y` exactly once each, `/x` parent of `/x/y`, and `/x/y` parent of
the file. -/
theorem c7_folder_hierarchy_chain (ds : List String) (fname : String)
    (root : TSNode) (hds : ∀ d ∈ ds, d ≠ "") (hf : fname ≠ "") :
    (∀ p, ((extractFile (ds ++ [fname]) root).trap.entries.countP
          (isFolderRow p))
        = if p ∈ (List.inits ds).map renderPath then 1 else 0)
    ∧ (extractFile (ds ++ [fname]) root).trap.entries.filter
        (fun e => e.table == "folders")
        = folderRows 1 ((List.inits ds).map renderPath)
    ∧ (extractFile (ds ++ [fname]) root).trap.entries.filter
        (fun e => e.table == "containerparent")
        = cpRows (freshL 1) 2 ds.length
          ++ [cpEntry (freshL (ds.length + 1)) (freshL 0)] := by
  obtain ⟨Δt, httb, hE⟩ := extractFile_shape ds fname root hds hf
  have hAnd : ((List.inits ds).map renderPath).Nodup :=
    (chainKeys_nodup ds hds).of_map
  have hAlen : ((List.inits ds).map renderPath).length = ds.length + 1 := by
    rw [List.length_map, List.length_inits]
  refine ⟨?_, ?_, ?_⟩
  · intro p
    rw [hE, List.countP_cons, List.countP_append, List.countP_cons]
    have h0 : isFolderRow p ⟨"files", [TrapValue.label (freshL 0),
        TrapValue.string (renderPath (ds ++ [fname]))]⟩ = false := rfl
    have hΔ : Δt.countP (isFolderRow p) = 0 := by
      rw [List.countP_eq_zero]
      intro e he
      have h2 := (tree_table_not_folder_cp e.table (httb e he)).1
      simp [isFolderRow, h2]
    rw [chainRows_countP_folder, countP_beq_nodup p _ hAnd, hΔ,
      isFolderRow_cpEntry, h0]
    simp
  · rw [hE, List.filter_cons, List.filter_append, List.filter_cons]
    have hΔ : Δt.filter (fun e => e.table == "folders") = [] := by
      rw [List.filter_eq_nil_iff]
      intro e he
      have h2 := (tree_table_not_folder_cp e.table (httb e he)).1
      simp [h2]
    rw [chainRows_filter_folders, hΔ]
    simp [cpEntry]
  · rw [hE, List.filter_cons, List.filter_append, List.filter_cons]
    have hΔ : Δt.filter (fun e => e.table == "containerparent") = [] := by
      rw [List.filter_eq_nil_iff]
      intro e he
      have h2 := (tree_table_not_folder_cp e.table (httb e he)).2
      simp [h2]
    rw [chainRows_filter_cp_none, hΔ, hAlen]
    simp [cpEntry]

theorem c7_folder_hierarchy_chain_witness :
    ((extractFile (["x", "y"] ++ ["Z.sol"]) c7Leaf).trap.entries.countP
        (isFolderRow "/x")
      = if "/x" ∈ (List.inits ["x", "y"]).map renderPath then 1 else 0)
    ∧ (extractFile (["x", "y"] ++ ["Z.sol"]) c7Leaf).trap.entries.filter
        (fun e => e.table == "containerparent")
      = cpRows (freshL 1) 2 (["x", "y"] : List String).length
        ++ [cpEntry (freshL ((["x", "y"] : List String).length + 1))
             (freshL 0)] :=
  ⟨(c7_folder_hierarchy_chain ["x", "y"] "Z.sol" c7Leaf (by decide)
      (by decide)).1 "/x",
   (c7_folder_hierarchy_chain ["x", "y"] "Z.sol" c7Leaf (by decide)
      (by decide)).2.2⟩
